import Mathlib

/-
Verification of the stu dependency model and parser
(src/dependency.hh: flags enum, Dependency class hierarchy,
Stack of dependency bits, split_compound_dependencies, instantiate;
src/flags.hh: a later revision of the flags enum;
the parser translation unit: Parser::parse_rule, Parser::append_copy,
expression parsing).

Machine integers: the C++ code stores flags and stack bits in `unsigned`
(32 bits on the platforms the code targets: CHAR_BIT * sizeof(int) = 32,
cf. the comment "31 on almost all used platforms" on class Stack).
They are modelled as Nat, with an explicit % 2 ^ 32 at the one place
where a left shift could overflow (Stack::push).

Exceptions: the code throws the error codes ERROR_LOGICAL and ERROR_FATAL;
functions that can throw are modelled in Except.  The C++ `assert`
statements are compiled out in the released build (the Makefile passes
-DNDEBUG); they are rendered here as separate invariant predicates and
theorems, not as control flow.
-/

/-- Error codes thrown by the code (error.hh is not part of the sources
under verification; only the two codes that occur in dependency.hh and
the parser are needed). -/
inductive Err where
  | ERROR_LOGICAL : Err
  | ERROR_FATAL : Err
deriving DecidableEq

/-! Flag bits of src/dependency.hh (lines 37-98).  The enum is rendered
with each enumerator as a Nat definition. -/

def I_PERSISTENT : Nat := 0

def I_OPTIONAL : Nat := 1

def I_TRIVIAL : Nat := 2

def I_READ : Nat := 3

def I_VARIABLE : Nat := 4

def I_OVERRIDE_TRIVIAL : Nat := 5

def I_NEWLINE_SEPARATED : Nat := 6

def I_ZERO_SEPARATED : Nat := 7

def C_ALL : Nat := 8

/-- The first C_TRANSITIVE flags are transitive (dependency.hh line 53). -/
def C_TRANSITIVE : Nat := 3

def F_PERSISTENT : Nat := 1 <<< I_PERSISTENT

def F_OPTIONAL : Nat := 1 <<< I_OPTIONAL

def F_TRIVIAL : Nat := 1 <<< I_TRIVIAL

def F_READ : Nat := 1 <<< I_READ

def F_VARIABLE : Nat := 1 <<< I_VARIABLE

def F_OVERRIDE_TRIVIAL : Nat := 1 <<< I_OVERRIDE_TRIVIAL

def F_NEWLINE_SEPARATED : Nat := 1 <<< I_NEWLINE_SEPARATED

def F_ZERO_SEPARATED : Nat := 1 <<< I_ZERO_SEPARATED

/-- Modelled from the spec: the parser translation unit references a flag
F_IGNORE_TIMESTAMP for the operator character of ignore-timestamp
dependencies, which the flags enum of the dependency.hh snapshot in src/
does not define.  The spec lists IGNORE_TIMESTAMP as a non-transitive
per-edge flag; it is given a fresh bit outside the snapshot's C_ALL
range so that it collides with none of the snapshot's bits. -/
def F_IGNORE_TIMESTAMP : Nat := 1 <<< C_ALL

namespace flags_hh

/-! The flag enum of src/flags.hh, a later revision of the same enum
(flags.hh lines 28-111).  Only the constants relevant to how many flags
are placed and how many are transitive are rendered. -/

def I_PERSISTENT : Nat := 0

def I_OPTIONAL : Nat := 1

def I_TRIVIAL : Nat := 2

def I_RESULT_ONLY : Nat := 3

def I_DYNAMIC_LEFT : Nat := 4

def I_COPY_RESULT : Nat := 5

def I_VARIABLE : Nat := 6

def I_OVERRIDE_TRIVIAL : Nat := 7

def I_NEWLINE_SEPARATED : Nat := 8

def I_NUL_SEPARATED : Nat := 9

def C_ALL : Nat := 10

/-- Only the first C_PLACED flags have a place associated with them
(flags.hh lines 54-55). -/
def C_PLACED : Nat := 3

/-- The first C_TRANSITIVE flags are transitive (flags.hh lines 57-59). -/
def C_TRANSITIVE : Nat := 4

end flags_hh

/-- A source location (class Place of the missing place/error headers).
Places are carried around for diagnostics only; they are modelled as an
opaque identifier, with 0 standing for the default-constructed empty
place. -/
abbrev Place : Type := Nat

/-- The array `Place places[C_TRANSITIVE]` of Single_Dependency
(dependency.hh line 214): one place per transitive flag, unrolled for
C_TRANSITIVE = 3. -/
structure Places where
  p0 : Place
  p1 : Place
  p2 : Place
deriving DecidableEq

/-- All-empty places array (default-constructed Place objects). -/
def Places.empty : Places := ⟨0, 0, 0⟩

/-- get_place_flag i (dependency.hh lines 247-250), for 0 ≤ i < C_TRANSITIVE. -/
def Places.get : Places → Nat → Place
  | pl, 0 => pl.p0
  | pl, 1 => pl.p1
  | pl, 2 => pl.p2
  | _, _ => 0

/-- set_place_flag i (dependency.hh lines 252-255). -/
def Places.set : Places → Nat → Place → Places
  | pl, 0, p => ⟨p, pl.p1, pl.p2⟩
  | pl, 1, p => ⟨pl.p0, p, pl.p2⟩
  | pl, 2, p => ⟨pl.p0, pl.p1, p⟩
  | pl, _, _ => pl

/-- Modelled from the spec: a parameterized name (class Param_Name of the
missing target.hh): an alternating sequence of literal text fragments
t0, t1, ..., tn and parameter names p1, ..., pn.  Field `rest` holds the
pairs (p1, t1), ..., (pn, tn); the rendered name is
t0 · v(p1) · t1 · ... · v(pn) · tn. -/
structure Param_Name where
  t0 : String
  rest : List (String × String)
deriving DecidableEq

/-- get_n(): the number of parameters. -/
def Param_Name.get_n (pn : Param_Name) : Nat := pn.rest.length

/-- get_texts(): the n+1 literal text fragments t0 ... tn. -/
def Param_Name.get_texts (pn : Param_Name) : List String :=
  pn.t0 :: pn.rest.map Prod.snd

/-- get_parameters(): the n parameter names p1 ... pn. -/
def Param_Name.get_parameters (pn : Param_Name) : List String :=
  pn.rest.map Prod.fst

/-- last_text(): the final literal text fragment tn. -/
def Param_Name.last_text (pn : Param_Name) : String :=
  match pn.rest.getLast? with
  | none => pn.t0
  | some pt => pt.2

/-- Helper for append_text: append a string to the text component of the
last pair of the list. -/
def lastTextApp : List (String × String) → String → List (String × String)
  | [], _ => []
  | [(p, t)], s => [(p, t ++ s)]
  | x :: y :: xs, s => x :: lastTextApp (y :: xs) s

/-- append_text(s): append the string s to the final literal text
fragment tn. -/
def Param_Name.append_text (pn : Param_Name) (s : String) : Param_Name :=
  match pn.rest with
  | [] => ⟨pn.t0 ++ s, []⟩
  | _ => ⟨pn.t0, lastTextApp pn.rest s⟩

/-- append_parameter(p): append a parameter p followed by an empty text
fragment. -/
def Param_Name.append_parameter (pn : Param_Name) (p : String) : Param_Name :=
  ⟨pn.t0, pn.rest ++ [(p, "")]⟩

/-- append(q): append all components of q, merging q's first text
fragment into the final text fragment. -/
def Param_Name.append (pn q : Param_Name) : Param_Name :=
  let pn' := pn.append_text q.t0
  ⟨pn'.t0, pn'.rest ++ q.rest⟩

/-- The rendered form of the pairs (p1, t1) ... (pn, tn) under a
parameter valuation v: v(p1) · t1 · ... · v(pn) · tn. -/
def renderRest (v : String → String) : List (String × String) → String
  | [] => ""
  | pt :: r => v pt.1 ++ pt.2 ++ renderRest v r

/-- The rendered name under a parameter valuation v:
t0 · v(p1) · t1 · ... · v(pn) · tn (spec, section 3). -/
def Param_Name.render (pn : Param_Name) (v : String → String) : String :=
  pn.t0 ++ renderRest v pn.rest

/-- unparametrized(): the name of a parameterless Param_Name, i.e. its
single text fragment t0. -/
def Param_Name.unparametrized (pn : Param_Name) : String := pn.t0

/-- valid(): consecutive parameters must be separated by at least one
literal character, i.e. the middle fragments t1 ... t(n-1) are nonempty. -/
def Param_Name.valid (pn : Param_Name) : Bool :=
  pn.rest.dropLast.all (fun pt => pt.2 != "")

/-- get_duplicate_parameter() ≠ "": whether some parameter name repeats. -/
def Param_Name.has_duplicate_parameter (pn : Param_Name) : Bool :=
  decide (¬ pn.get_parameters.Nodup)

/-- The suffix of the character list after its last '/', or none when it
contains no '/' (the right-to-left inner scan of Parser::append_copy). -/
def afterLastSlash : List Char → Option (List Char)
  | [] => none
  | c :: cs =>
    match afterLastSlash cs with
    | some t => some t
    | none => if c = '/' then some cs else none

/-- The suffix of the string after its last '/', or none. -/
def strAfterLastSlash (s : String) : Option String :=
  match afterLastSlash s.data with
  | none => none
  | some t => some (String.mk t)

/-- Scan a list of text fragments from the last one towards the first
for a fragment containing '/' (the outer loop of Parser::append_copy,
which runs i from n down to 0); returns the index of that fragment and
the part of it after its last slash. -/
def findLastSlashTexts : List String → Option (Nat × String)
  | [] => none
  | t :: ts =>
    match findLastSlashTexts ts with
    | some (i, tail) => some (i + 1, tail)
    | none =>
      match strAfterLastSlash t with
      | some tail => some (0, tail)
      | none => none

/-- Parser::append_copy (parser translation unit, lines 2223-2253): if TO
ends in '/', append to it the part of FROM that comes after the last
slash in FROM's literal texts (parameters are not considered for
containing slashes), or the full FROM if its texts contain no slash. -/
def Parser.append_copy (toN fromN : Param_Name) : Param_Name :=
  if ¬ (toN.last_text.length ≠ 0 ∧ toN.last_text.back = '/') then toN
  else
    match findLastSlashTexts fromN.get_texts with
    | some (i, tail) =>
      ⟨(toN.append_text tail).t0, (toN.append_text tail).rest ++ fromN.rest.drop i⟩
    | none => toN.append fromN

/-- The part of a parameterized name after the last '/' occurring in its
literal texts; the whole name when its texts contain no '/'.  This
definition follows the spec's words ("appends the tail of the target
name past its last `/`", slashes inside parameters not considered) and
is compared against Parser.append_copy. -/
def Param_Name.tailAfterLastSlash (pn : Param_Name) : Param_Name :=
  match findLastSlashTexts pn.get_texts with
  | some (i, tail) => ⟨tail, pn.rest.drop i⟩
  | none => pn

/-- Target kinds (spec, section 3: kind of a target). -/
inductive TKind where
  | file : TKind
  | transient : TKind
deriving DecidableEq

/-- Modelled from the spec: class Type of the missing target.hh.  A
dynamic target is a base kind together with a dynamic depth; depth 0 is
the base target. -/
structure TType where
  kind : TKind
  depth : Nat
deriving DecidableEq

def TType.FILE : TType := ⟨TKind.file, 0⟩

def TType.TRANSIENT : TType := ⟨TKind.transient, 0⟩

/-- Type::is_dynamic(). -/
def TType.is_dynamic (t : TType) : Bool := t.depth ≠ 0

/-- Modelled from the spec: class Place_Param_Target of the missing
target.hh: a target kind together with a parameterized name and the
place of its declaration. -/
structure Place_Param_Target where
  ttype : TType
  place_param_name : Param_Name
  place : Place
deriving DecidableEq

/-- Place_Param_Target::instantiate(mapping): substitute every parameter
of the name using the valuation; the result is unparametrized (the code
asserts get_n() == 0 on the result). -/
def Place_Param_Target.instantiate (t : Place_Param_Target) (v : String → String) :
    Place_Param_Target :=
  ⟨t.ttype, ⟨t.place_param_name.render v, []⟩, t.place⟩

/-- The dependency class hierarchy of dependency.hh as a sum type:
Direct_Dependency (lines 264-405), Dynamic_Dependency (407-501),
Compound_Dependency (562-629), Concatenated_Dependency (503-560).
Every variant embeds the Single_Dependency header (flags and the places
of the transitive flags); direct carries the target, the place of
declaration and the variable name (nonempty only with F_VARIABLE). -/
inductive Dep where
  | direct (flags : Nat) (places : Places) (place_param_target : Place_Param_Target)
      (place : Place) (name : String) : Dep
  | dynamic (flags : Nat) (places : Places) (dep : Dep) : Dep
  | compound (flags : Nat) (places : Places) (place : Place) (deps : List Dep) : Dep
  | concatenated (flags : Nat) (places : Places) (deps : List Dep) : Dep

/-- get_flags(). -/
def Dep.get_flags : Dep → Nat
  | .direct f _ _ _ _ => f
  | .dynamic f _ _ => f
  | .compound f _ _ _ => f
  | .concatenated f _ _ => f

/-- get_place_flag of the embedded Single_Dependency. -/
def Dep.get_places : Dep → Places
  | .direct _ pl _ _ _ => pl
  | .dynamic _ pl _ => pl
  | .compound _ pl _ _ => pl
  | .concatenated _ pl _ => pl

/-- has_flags(flags_): whether all given flag bits are set. -/
def Dep.has_flags (d : Dep) (f : Nat) : Bool := d.get_flags &&& f == f

/-- add_flags(flags_) of Single_Dependency (dependency.hh lines 242-245):
set the given bits. -/
def Dep.add_flags : Dep → Nat → Dep
  | .direct g pl t p nm, f => .direct (g ||| f) pl t p nm
  | .dynamic g pl d, f => .dynamic (g ||| f) pl d
  | .compound g pl p ds, f => .compound (g ||| f) pl p ds
  | .concatenated g pl ds, f => .concatenated (g ||| f) pl ds

/-- set_place_flag i place. -/
def Dep.set_place_flag : Dep → Nat → Place → Dep
  | .direct g pl t p nm, i, q => .direct g (pl.set i q) t p nm
  | .dynamic g pl d, i, q => .dynamic g (pl.set i q) d
  | .compound g pl p ds, i, q => .compound g (pl.set i q) p ds
  | .concatenated g pl ds, i, q => .concatenated g (pl.set i q) ds

/-- The place update of Single_Dependency::add_flags(dependency, false)
(dependency.hh lines 907-918): for each transitive flag i set in the
other dependency's flags f, copy the other's place over unless this
dependency's own flag i is already set.  The loop over
i < C_TRANSITIVE = 3 is unrolled. -/
def placesAddFrom (g : Nat) (q : Places) (f : Nat) (pl : Places) : Places :=
  ⟨if f.testBit 0 && ! g.testBit 0 then pl.p0 else q.p0,
   if f.testBit 1 && ! g.testBit 1 then pl.p1 else q.p1,
   if f.testBit 2 && ! g.testBit 2 then pl.p2 else q.p2⟩

/-- Single_Dependency::add_flags(dependency, overwrite_places = false)
as called by split_compound_dependencies (dependency.hh lines 875-876,
907-918): copy the places of flags newly arriving from `f`, then OR all
of `f` into the flags. -/
def Dep.add_flags_from : Dep → Nat → Places → Dep
  | .direct g q t p nm, f, pl => .direct (g ||| f) (placesAddFrom g q f pl) t p nm
  | .dynamic g q d, f, pl => .dynamic (g ||| f) (placesAddFrom g q f pl) d
  | .compound g q p ds, f, pl => .compound (g ||| f) (placesAddFrom g q f pl) p ds
  | .concatenated g q ds, f, pl => .concatenated (g ||| f) (placesAddFrom g q f pl) ds

mutual

/-- A structural size measure on dependencies (number of nodes); it does
not depend on flags or places, so Dep.add_flags_from preserves it. -/
def Dep.size : Dep → Nat
  | .direct _ _ _ _ _ => 1
  | .dynamic _ _ d => d.size + 1
  | .compound _ _ _ ds => sizeListDep ds + 1
  | .concatenated _ _ ds => sizeListDep ds + 1

def sizeListDep : List Dep → Nat
  | [] => 0
  | d :: ds => d.size + sizeListDep ds

end

mutual

/-- Dependency::split_compound_dependencies (dependency.hh lines
852-889): flatten compound dependencies recursively.  A direct
dependency is pushed as is; for a dynamic dependency, the inner
dependency is split and each resulting dependency is rewrapped in a
Dynamic_Dependency with the original's flags and places; for a compound
dependency, each member has the compound's flags and places added via
add_flags(compound, false) and is then split; for a concatenated
dependency the code hits assert(false) marked "TODO not yet
implemented", which in the released build (-DNDEBUG) is compiled out so
that nothing is pushed. -/
def Dep.split_compound_dependencies : Dep → List Dep
  | .direct f pl t p nm => [.direct f pl t p nm]
  | .dynamic f pl inner =>
    (inner.split_compound_dependencies).map (fun d => .dynamic f pl d)
  | .compound f pl _ ds => splitListDep f pl ds
  | .concatenated _ _ _ => []
termination_by d => 2 * d.size
decreasing_by
  all_goals simp_wf
  all_goals simp only [Dep.size, sizeListDep]
  all_goals omega

def splitListDep (f : Nat) (pl : Places) : List Dep → List Dep
  | [] => []
  | d :: ds =>
    (d.add_flags_from f pl).split_compound_dependencies ++ splitListDep f pl ds
termination_by ds => 2 * sizeListDep ds + 1
decreasing_by
  all_goals simp_wf
  all_goals have hs : (Dep.add_flags_from d f pl).size = d.size := by cases d <;> rfl
  all_goals have hp : 0 < d.size := by cases d <;> simp [Dep.size]
  all_goals simp only [sizeListDep]
  all_goals omega

end

/-- Whether a dependency is a Compound_Dependency at its top node. -/
def Dep.is_compound : Dep → Bool
  | .compound _ _ _ _ => true
  | _ => false

mutual

/-- Whether a dependency tree contains no Concatenated_Dependency node
(the unimplemented case of split_compound_dependencies). -/
def Dep.concat_free : Dep → Bool
  | .direct _ _ _ _ _ => true
  | .dynamic _ _ d => d.concat_free
  | .compound _ _ _ ds => concatFreeList ds
  | .concatenated _ _ _ => false

def concatFreeList : List Dep → Bool
  | [] => true
  | d :: ds => d.concat_free && concatFreeList ds

end

/-- The three optional places accumulated along a nesting path, one per
transitive flag: none when no node on the path has the flag set. -/
structure OptPlaces where
  q0 : Option Place
  q1 : Option Place
  q2 : Option Place
deriving DecidableEq

/-- The empty accumulator: no flag seen yet on the path. -/
def OptPlaces.none3 : OptPlaces := ⟨none, none, none⟩

/-- Accumulate one node's flags and places into the path accumulator:
for each transitive flag set at the node, the node's place takes over
(a deeper node's place wins over an enclosing node's place, matching
add_flags which never overwrites a place whose flag is already set in
the child). -/
def accPlaces (P : OptPlaces) (f : Nat) (pl : Places) : OptPlaces :=
  ⟨if f.testBit 0 then some pl.p0 else P.q0,
   if f.testBit 1 then some pl.p1 else P.q1,
   if f.testBit 2 then some pl.p2 else P.q2⟩

/-- An innermost Direct target together with the flags and transitive
flag places accumulated along its nesting path. -/
abbrev Leaf : Type := Place_Param_Target × Nat × OptPlaces

mutual

/-- The multiset of innermost Direct targets of a dependency, each
together with the bitwise OR of the flags along its nesting path and
the accumulated places of the transitive flags (spec, sections 4.1 and
8).  F and P accumulate the flags and places of the enclosing nodes. -/
def Dep.leaves : Nat → OptPlaces → Dep → Multiset Leaf
  | F, P, .direct f pl t _ _ => {(t, F ||| f, accPlaces P f pl)}
  | F, P, .dynamic f pl inner => Dep.leaves (F ||| f) (accPlaces P f pl) inner
  | F, P, .compound f pl _ ds => leavesList (F ||| f) (accPlaces P f pl) ds
  | F, P, .concatenated f pl ds => leavesList (F ||| f) (accPlaces P f pl) ds

def leavesList : Nat → OptPlaces → List Dep → Multiset Leaf
  | _, _, [] => 0
  | F, P, d :: ds => Dep.leaves F P d + leavesList F P ds

end

mutual

/-- instantiate(mapping) (dependency.hh lines 920-944 for
Direct_Dependency, 437-442 for Dynamic_Dependency, 946-958 for
Compound_Dependency, 1022-1034 for Concatenated_Dependency): substitute
every parameter using the name-to-value valuation.  A Direct dependency
throws ERROR_LOGICAL when it carries F_VARIABLE and the substituted
name contains '='.  A Dynamic dependency is rebuilt through the
constructor without a places argument, so its places array is
default-constructed. -/
def Dep.instantiate (v : String → String) : Dep → Except Err Dep
  | .direct f pl t p nm =>
    let ret_target := Place_Param_Target.instantiate t v
    if (f &&& F_VARIABLE ≠ 0) ∧ '=' ∈ ret_target.place_param_name.unparametrized.data then
      .error .ERROR_LOGICAL
    else
      .ok (.direct f pl ret_target p nm)
  | .dynamic f _ d => do
    let d' ← Dep.instantiate v d
    .ok (.dynamic f Places.empty d')
  | .compound f pl p ds => do
    let ds' ← instantiateListDep v ds
    .ok (.compound f pl p ds')
  | .concatenated f pl ds => do
    let ds' ← instantiateListDep v ds
    .ok (.concatenated f pl ds')

def instantiateListDep (v : String → String) : List Dep → Except Err (List Dep)
  | [] => .ok []
  | d :: ds => do
    let d' ← Dep.instantiate v d
    let ds' ← instantiateListDep v ds
    .ok (d' :: ds')

end

mutual

/-- The structural invariants checked by the dependency constructors of
dependency.hh, as one recursive predicate over the tree:
Direct_Dependency::check (lines 341-349) requires that the target is
not itself dynamic and that a nonempty variable name implies FILE kind
and the F_VARIABLE flag; the Dynamic_Dependency constructors (lines
416-435) assert that neither F_READ nor F_VARIABLE is set on a Dynamic
node. -/
def Dep.wf : Dep → Bool
  | .direct f _ t _ nm =>
    (! t.ttype.is_dynamic) &&
      (decide (nm = "") || (decide (t.ttype = TType.FILE) && decide (f &&& F_VARIABLE ≠ 0)))
  | .dynamic f _ d =>
    decide (f &&& F_READ = 0) && decide (f &&& F_VARIABLE = 0) && Dep.wf d
  | .compound _ _ _ ds => wfList ds
  | .concatenated _ _ ds => wfList ds

def wfList : List Dep → Bool
  | [] => true
  | d :: ds => Dep.wf d && wfList ds

end

mutual

/-- Whether every Compound node of the tree is free of the F_READ and
F_VARIABLE bits.  The code asserts nothing about Compound flags; this
condition is what the parser-produced groups satisfy, and it is needed
because split_compound_dependencies ORs a compound's flags into its
members. -/
def Dep.compound_clean : Dep → Bool
  | .direct _ _ _ _ _ => true
  | .dynamic _ _ d => Dep.compound_clean d
  | .compound f _ _ ds =>
    decide (f &&& (F_READ ||| F_VARIABLE) = 0) && compoundCleanList ds
  | .concatenated _ _ ds => compoundCleanList ds

def compoundCleanList : List Dep → Bool
  | [] => true
  | d :: ds => Dep.compound_clean d && compoundCleanList ds

end

/-- CHAR_BIT * sizeof(int): the bit width of int/unsigned on the
platforms the code targets (cf. the comment on class Stack,
dependency.hh lines 631-647: "31 on almost all used platforms"). -/
def wordBits : Nat := 32

/-- class Stack (dependency.hh lines 631-848): a stack of dependency
bits, containing only the C_TRANSITIVE = 3 transitive bits.  DEPTH+1
bits are stored for each flag in an unsigned word; the loop over
i < C_TRANSITIVE is unrolled into the three fields b0, b1, b2. -/
structure Stack where
  depth : Nat
  b0 : Nat
  b1 : Nat
  b2 : Nat
deriving DecidableEq

/-- Stack::check (dependency.hh lines 650-658): depth + 1 is less than
the bit width of int, and for each flag only the lowest depth + 1 bits
may be set, i.e. bits[i] < 2 ^ (depth + 1). -/
def Stack.check (s : Stack) : Prop :=
  s.depth + 1 < wordBits ∧
    s.b0 < 2 ^ (s.depth + 1) ∧ s.b1 < 2 ^ (s.depth + 1) ∧ s.b2 < 2 ^ (s.depth + 1)

instance (s : Stack) : Decidable s.check := by
  unfold Stack.check
  infer_instance

/-- Stack() (dependency.hh lines 660-666): depth zero, all bits zero. -/
def Stack.mkEmpty : Stack := ⟨0, 0, 0, 0⟩

/-- Stack(Flags) (dependency.hh lines 668-676): depth zero, bit i set
iff flag i is set. -/
def Stack.ofFlags (f : Nat) : Stack :=
  ⟨0, (f.testBit 0).toNat, (f.testBit 1).toNat, (f.testBit 2).toNat⟩

/-- Stack(unsigned depth_, int zero) (dependency.hh lines 678-689):
all-zero with the given depth; throws ERROR_FATAL ("dynamic dependency
recursion limit exceeded") when depth_ >= CHAR_BIT * sizeof(int) - 1. -/
def Stack.ofDepth (depth : Nat) : Except Err Stack :=
  if depth ≥ wordBits - 1 then .error .ERROR_FATAL
  else .ok ⟨depth, 0, 0, 0⟩

/-- get_lowest (dependency.hh lines 698-708). -/
def Stack.get_lowest (s : Stack) : Nat :=
  (s.b0 &&& 1) ||| ((s.b1 &&& 1) <<< 1) ||| ((s.b2 &&& 1) <<< 2)

/-- get_highest (dependency.hh lines 710-717). -/
def Stack.get_highest (s : Stack) : Nat :=
  ((s.b0 >>> s.depth) &&& 1) ||| (((s.b1 >>> s.depth) &&& 1) <<< 1) |||
    (((s.b2 >>> s.depth) &&& 1) <<< 2)

/-- get_one (dependency.hh lines 719-729), for depth 0. -/
def Stack.get_one (s : Stack) : Nat :=
  s.b0 ||| (s.b1 <<< 1) ||| (s.b2 <<< 2)

/-- get(j) (dependency.hh lines 731-737): the flags at depth level j. -/
def Stack.get (s : Stack) (j : Nat) : Nat :=
  ((s.b0 >>> j) &&& 1) ||| (((s.b1 >>> j) &&& 1) <<< 1) ||| (((s.b2 >>> j) &&& 1) <<< 2)

/-- add (dependency.hh lines 739-745); the code asserts equal depths. -/
def Stack.add (s t : Stack) : Stack :=
  ⟨s.depth, s.b0 ||| t.b0, s.b1 ||| t.b1, s.b2 ||| t.b2⟩

/-- add_neg (dependency.hh lines 747-756): add the negation of the
argument, restricted to the lowest depth + 1 bits. -/
def Stack.add_neg (s t : Stack) : Stack :=
  ⟨s.depth,
   s.b0 ||| (((1 <<< (s.depth + 1)) - 1) ^^^ t.b0),
   s.b1 ||| (((1 <<< (s.depth + 1)) - 1) ^^^ t.b1),
   s.b2 ||| (((1 <<< (s.depth + 1)) - 1) ^^^ t.b2)⟩

/-- add_lowest (dependency.hh lines 758-763). -/
def Stack.add_lowest (s : Stack) (f : Nat) : Stack :=
  ⟨s.depth,
   s.b0 ||| (f.testBit 0).toNat,
   s.b1 ||| (f.testBit 1).toNat,
   s.b2 ||| (f.testBit 2).toNat⟩

/-- add_highest (dependency.hh lines 765-770). -/
def Stack.add_highest (s : Stack) (f : Nat) : Stack :=
  ⟨s.depth,
   s.b0 ||| ((f.testBit 0).toNat <<< s.depth),
   s.b1 ||| ((f.testBit 1).toNat <<< s.depth),
   s.b2 ||| ((f.testBit 2).toNat <<< s.depth)⟩

/-- rem_highest (dependency.hh lines 772-777): clear the highest bit of
each flag that is set in the argument.  The C++ complement of the
32-bit unsigned operand is rendered as xor against 2 ^ 32 - 1. -/
def Stack.rem_highest (s : Stack) (f : Nat) : Stack :=
  ⟨s.depth,
   s.b0 &&& ((2 ^ wordBits - 1) ^^^ ((f.testBit 0).toNat <<< s.depth)),
   s.b1 &&& ((2 ^ wordBits - 1) ^^^ ((f.testBit 1).toNat <<< s.depth)),
   s.b2 &&& ((2 ^ wordBits - 1) ^^^ ((f.testBit 2).toNat <<< s.depth))⟩

/-- add_highest_neg (dependency.hh lines 779-784). -/
def Stack.add_highest_neg (s : Stack) (f : Nat) : Stack :=
  ⟨s.depth,
   s.b0 ||| ((!(f.testBit 0)).toNat <<< s.depth),
   s.b1 ||| ((!(f.testBit 1)).toNat <<< s.depth),
   s.b2 ||| ((!(f.testBit 2)).toNat <<< s.depth)⟩

/-- add_one_neg(Flags) (dependency.hh lines 786-794), for depth 0:
set bit i when flag i is unset. -/
def Stack.add_one_neg (s : Stack) (f : Nat) : Stack :=
  ⟨s.depth,
   s.b0 ||| (((f >>> 0) &&& 1) ^^^ 1),
   s.b1 ||| (((f >>> 1) &&& 1) ^^^ 1),
   s.b2 ||| (((f >>> 2) &&& 1) ^^^ 1)⟩

/-- add_one_neg(Stack) (dependency.hh lines 796-805), for two stacks of
depth 0. -/
def Stack.add_one_neg_stack (s t : Stack) : Stack :=
  ⟨s.depth, s.b0 ||| (t.b0 ^^^ 1), s.b1 ||| (t.b1 ^^^ 1), s.b2 ||| (t.b2 ^^^ 1)⟩

/-- push (dependency.hh lines 807-819): add a lowest level, shifting
all bits up; throws ERROR_FATAL ("dynamic dependency recursion limit
exceeded") when depth == CHAR_BIT * sizeof(int) - 2.  The left shift
operates on a 32-bit unsigned, hence the explicit reduction. -/
def Stack.push (s : Stack) : Except Err Stack :=
  if s.depth = wordBits - 2 then .error .ERROR_FATAL
  else
    .ok ⟨s.depth + 1, (s.b0 <<< 1) % 2 ^ wordBits, (s.b1 <<< 1) % 2 ^ wordBits,
      (s.b2 <<< 1) % 2 ^ wordBits⟩

/-- pop (dependency.hh lines 821-829): remove the lowest level; the
code asserts depth > 0. -/
def Stack.pop (s : Stack) : Stack :=
  ⟨s.depth - 1, s.b0 >>> 1, s.b1 >>> 1, s.b2 >>> 1⟩

/-- Stack(shared_ptr<Dependency>) (dependency.hh lines 1119-1136),
written with the accumulating stack of the while loop explicit: peel
Dynamic wrappers from the outside in, recording each one's flags via
add_lowest before pushing a level; finally record the flags of the
innermost non-Dynamic dependency. -/
def Stack.ofDepAux : Stack → Dep → Except Err Stack
  | s, .dynamic f _ inner => do
    let s1 := s.add_lowest f
    let s2 ← s1.push
    Stack.ofDepAux s2 inner
  | s, d => .ok (s.add_lowest d.get_flags)

/-- Stack(shared_ptr<Dependency>): starts from depth 0 with all bits
zero. -/
def Stack.ofDep (d : Dep) : Except Err Stack :=
  Stack.ofDepAux ⟨0, 0, 0, 0⟩ d

/-- The bits array of a Stack indexed by flag index i < C_TRANSITIVE. -/
def Stack.bitsAt : Stack → Nat → Nat
  | s, 0 => s.b0
  | s, 1 => s.b1
  | s, 2 => s.b2
  | _, _ => 0

/-- A simple dependency made of Dynamic wrappers around a Direct
dependency; the list holds the flags and places of the wrappers from
the outermost one inwards. -/
def dynChain : List (Nat × Places) → Dep → Dep
  | [], d0 => d0
  | (f, pl) :: fs, d0 => .dynamic f pl (dynChain fs d0)

/-- The transitive flag bit i recorded at nesting level j of a chain:
level 0 is the innermost Direct dependency, level (length fs) the
outermost Dynamic wrapper. -/
def chainBit (fs : List (Nat × Places)) (fd : Nat) (i j : Nat) : Bool :=
  if j = 0 then fd.testBit i
  else if j ≤ fs.length then ((fs.getD (fs.length - j) (0, Places.empty)).1).testBit i
  else false

/-- Modelled from the spec: the token stream produced by the external
tokenizer (token.hh is not among the sources): operator characters,
name tokens carrying a parameterized name, and command tokens carrying
the command text.  Token source places are diagnostic-only and are not
modelled. -/
inductive Token where
  | op : Char → Token
  | name : Param_Name → Token
  | command : String → Token
deriving DecidableEq

/-- Modelled from the spec: the global command-line option flag making
optional dependencies inert; false in a default invocation (the global
is declared outside the sources under verification). -/
def option_nonoptional : Bool := false

/-- Modelled from the spec: the global command-line option flag making
trivial dependencies inert; false in a default invocation. -/
def option_nontrivial : Bool := false

/-- Modelled from the spec: class Rule (rule.hh is not among the
sources).  A copy rule holds the single FILE target, the copy-source
filename, and whether a '!' prefix was given; an ordinary rule holds
targets, dependencies, the optional command, whether the command is
hardcoded content, the output-redirect index and the input-redirect
filename. -/
inductive RuleR where
  | copyRule (place_param_target : Place_Param_Target) (filename_copy : Param_Name)
      (flag_exclam : Bool) : RuleR
  | plain (place_param_targets : List Place_Param_Target) (deps : List Dep)
      (command : Option String) (is_hardcode : Bool) (redirect_index : Option Nat)
      (filename_input : Option Param_Name) : RuleR

/-- The flag loop of Parser::parse_variable_dependency (lines
1976-1998): consume '!', '?' and '&' operators inside $[...]; '?' is an
error unless option_nonoptional is set; '&' adds F_TRIVIAL unless
option_nontrivial is set. -/
def parse_var_flags : Nat → List Token → Except Err (Nat × List Token)
  | flags, Token.op '!' :: rest => parse_var_flags (flags ||| F_IGNORE_TIMESTAMP) rest
  | flags, Token.op '?' :: rest =>
    if ¬ option_nonoptional then .error .ERROR_LOGICAL
    else parse_var_flags flags rest
  | flags, Token.op '&' :: rest =>
    if ¬ option_nontrivial then parse_var_flags (flags ||| F_TRIVIAL) rest
    else parse_var_flags flags rest
  | flags, toks => .ok (flags, toks)

/-- Parser::parse_variable_dependency (lines 1944-2123): parse a
$[flags? <? name (= name)?] variable dependency.  Returns none when the
next token is not '$', or when '$' is not followed by '[' (the C++ code
returns nullptr in that case with the '$' token already consumed).
The input-redirection state is threaded as an Option Param_Name. -/
def parse_variable_dependency (inp : Option Param_Name) (toks : List Token) :
    Except Err (Option Dep × Option Param_Name × List Token) :=
  match toks with
  | Token.op '$' :: rest =>
    match rest with
    | [] => .error .ERROR_LOGICAL
    | Token.op '[' :: rest2 => do
      let (flags, rest3) ← parse_var_flags F_VARIABLE rest2
      let hasInput : Bool := match rest3 with
        | Token.op '<' :: _ => true
        | _ => false
      let rest4 : List Token := match rest3 with
        | Token.op '<' :: r => r
        | _ => rest3
      match rest4 with
      | Token.name pn :: rest5 =>
        if hasInput ∧ inp ≠ none then .error .ERROR_LOGICAL
        else if pn.get_texts.any (fun t => decide ('=' ∈ t.data)) then .error .ERROR_LOGICAL
        else
          match rest5 with
          | [] => .error .ERROR_LOGICAL
          | Token.op '=' :: rest6 =>
            match rest6 with
            | [] => .error .ERROR_LOGICAL
            | Token.name pn2 :: rest7 =>
              if pn.get_n ≠ 0 then .error .ERROR_LOGICAL
              else
                match rest7 with
                | Token.op ']' :: rest8 =>
                  .ok (some (.direct flags Places.empty ⟨TType.FILE, pn2, 0⟩ 0
                    pn.unparametrized),
                    (if hasInput then some pn2 else inp), rest8)
                | _ => .error .ERROR_LOGICAL
            | _ => .error .ERROR_LOGICAL
          | Token.op ']' :: rest6 =>
            .ok (some (.direct flags Places.empty ⟨TType.FILE, pn, 0⟩ 0 ""),
              (if hasInput then some pn else inp), rest6)
          | _ => .error .ERROR_LOGICAL
      | _ => .error .ERROR_LOGICAL
    | _ => .ok (none, inp, rest)
  | _ => .ok (none, inp, toks)

/-- Parser::parse_redirect_dependency (lines 2125-2221): parse an
optional '<' input redirection, an optional '@' transient marker, and a
name; returns none when nothing was read. -/
def parse_redirect_dependency (inp : Option Param_Name) (toks : List Token) :
    Except Err (Option Dep × Option Param_Name × List Token) :=
  let hasInput : Bool := match toks with
    | Token.op '<' :: _ => true
    | _ => false
  let toks1 : List Token := match toks with
    | Token.op '<' :: r => r
    | _ => toks
  let hasTransient : Bool := match toks1 with
    | Token.op '@' :: _ => true
    | _ => false
  let toks2 : List Token := match toks1 with
    | Token.op '@' :: r => r
    | _ => toks1
  if hasInput ∧ hasTransient then .error .ERROR_LOGICAL
  else
    match toks2 with
    | Token.name nt :: rest =>
      if hasInput ∧ inp ≠ none then .error .ERROR_LOGICAL
      else
        .ok (some (.direct 0 Places.empty
          ⟨(if hasTransient then TType.TRANSIENT else TType.FILE), nt, 0⟩ 0 ""),
          (if hasInput then some nt else inp), rest)
    | _ =>
      if hasInput ∨ hasTransient then .error .ERROR_LOGICAL
      else .ok (none, inp, toks)

mutual

/-- Parser::parse_expression_list (lines 1742-1762): repeatedly parse
expressions until one fails; returns whether anything was read.  The
fuel argument bounds the recursion depth; any fuel of at least the
token count suffices, since every successful parse consumes a token. -/
def parse_expression_list (fuel : Nat) (inp : Option Param_Name) (toks : List Token) :
    Except Err (Bool × List Dep × Option Param_Name × List Token) :=
  match fuel with
  | 0 => .error .ERROR_FATAL
  | fuel + 1 =>
    match toks with
    | [] => .ok (false, [], inp, [])
    | _ => do
      let (r, ds, inp2, toks2) ← parse_expression fuel inp toks
      if r then do
        let (_, ds2, inp3, toks3) ← parse_expression_list fuel inp2 toks2
        .ok (!(ds ++ ds2).isEmpty, ds ++ ds2, inp3, toks3)
      else
        .ok (false, ds, inp2, toks2)

/-- The `while (parse_expression_list(r, ...))` loops of the '(' and
'[' branches of Parser::parse_expression (lines 1776-1779 and
1802-1805). -/
def parse_expr_list_star (fuel : Nat) (inp : Option Param_Name) (toks : List Token) :
    Except Err (List Dep × Option Param_Name × List Token) :=
  match fuel with
  | 0 => .error .ERROR_FATAL
  | fuel + 1 => do
    let (r, ds, inp2, toks2) ← parse_expression_list fuel inp toks
    if r then do
      let (ds2, inp3, toks3) ← parse_expr_list_star fuel inp2 toks2
      .ok (ds ++ ds2, inp3, toks3)
    else
      .ok (ds, inp2, toks2)

/-- Parser::parse_expression (lines 1764-1942): parenthesized groups
(spliced into the surrounding list), dynamic dependencies in brackets,
the '!', '?' and '&' prefix operators, variable dependencies, and
direct/transient names.  The diagnostic place recorded by
set_place_ignore_timestamp is not modelled ('!' is not a transitive
flag and has no slot in the places array); set_place_optional and
set_place_trivial are set_place_flag at I_OPTIONAL and I_TRIVIAL with
the empty place, since token places are not modelled. -/
def parse_expression (fuel : Nat) (inp : Option Param_Name) (toks : List Token) :
    Except Err (Bool × List Dep × Option Param_Name × List Token) :=
  match fuel with
  | 0 => .error .ERROR_FATAL
  | fuel + 1 =>
    match toks with
    | Token.op '(' :: rest => do
      let (ds, inp2, toks2) ← parse_expr_list_star fuel inp rest
      match toks2 with
      | Token.op ')' :: rest2 => .ok (true, ds, inp2, rest2)
      | _ => .error .ERROR_LOGICAL
    | Token.op '[' :: rest => do
      let (ds, inp2, toks2) ← parse_expr_list_star fuel inp rest
      match toks2 with
      | Token.op ']' :: rest2 =>
        if ds.any (fun j => j.has_flags F_VARIABLE) then .error .ERROR_LOGICAL
        else .ok (true, ds.map (fun j => Dep.dynamic 0 Places.empty j), inp2, rest2)
      | _ => .error .ERROR_LOGICAL
    | Token.op '!' :: rest => do
      let (r, ds, inp2, toks2) ← parse_expression fuel inp rest
      if r then
        .ok (true, ds.map (fun j => j.add_flags F_IGNORE_TIMESTAMP), inp2, toks2)
      else .error .ERROR_LOGICAL
    | Token.op '?' :: rest => do
      let (r, ds, inp2, toks2) ← parse_expression fuel inp rest
      if ¬ r then .error .ERROR_LOGICAL
      else if ¬ option_nonoptional then
        if inp2 ≠ none then .error .ERROR_LOGICAL
        else .ok (true,
          ds.map (fun j => (j.add_flags F_OPTIONAL).set_place_flag I_OPTIONAL 0),
          inp2, toks2)
      else .ok (true, ds, inp2, toks2)
    | Token.op '&' :: rest => do
      let (r, ds, inp2, toks2) ← parse_expression fuel inp rest
      if ¬ r then .error .ERROR_LOGICAL
      else .ok (true, ds.map (fun j =>
        ((if ¬ option_nontrivial then j.add_flags F_TRIVIAL else j).set_place_flag
          I_TRIVIAL 0)), inp2, toks2)
    | _ => do
      let (od, inp2, toks2) ← parse_variable_dependency inp toks
      match od with
      | some d => .ok (true, [d], inp2, toks2)
      | none => do
        let (od2, inp3, toks3) ← parse_redirect_dependency inp2 toks2
        match od2 with
        | some d => .ok (true, [d], inp3, toks3)
        | none => .ok (false, [], inp3, toks3)

end

/-- The `while (is_operator('!'))` loop before a copy-rule filename
(lines 1557-1562): consume '!' operators; the returned Bool records
whether any was seen (the C++ code keeps the place of the last one). -/
def skip_bangs : List Token → Bool × List Token
  | Token.op '!' :: rest => (true, (skip_bangs rest).2)
  | toks => (false, toks)

/-- The check that all targets of a rule have the same set of
parameters (lines 1440-1460); the C++ code compares std::set values. -/
def same_parameters : List Place_Param_Target → Bool
  | [] => true
  | p0 :: rest =>
    rest.all (fun t => decide (t.place_param_name.get_parameters.toFinset =
      p0.place_param_name.get_parameters.toFinset))

/-- place_param_targets[0]; every use site is guarded by the emptiness
check of parse_rule, so the default is never read. -/
def headPPT (pts : List Place_Param_Target) : Place_Param_Target :=
  pts.headD ⟨TType.FILE, ⟨"", []⟩, 0⟩

/-- The target-reading loop of Parser::parse_rule (lines 1319-1433):
read '>'-redirected, '@'-transient and plain file targets until a token
that starts none of them; record the index of the '>' target and check
each name for parameter separation and duplicate parameters. -/
def parse_targets : List Place_Param_Target → Option Nat → List Token →
    Except Err (List Place_Param_Target × Option Nat × List Token)
  | pts, ridx, Token.op '>' :: rest =>
    match rest with
    | Token.name nm :: rest2 =>
      if ridx ≠ none then .error .ERROR_LOGICAL
      else if ¬ nm.valid then .error .ERROR_LOGICAL
      else if nm.has_duplicate_parameter then .error .ERROR_LOGICAL
      else parse_targets (pts ++ [⟨TType.FILE, nm, 0⟩]) (some pts.length) rest2
    | _ => .error .ERROR_LOGICAL
  | pts, ridx, Token.op '@' :: rest =>
    match rest with
    | Token.name nm :: rest2 =>
      if ¬ nm.valid then .error .ERROR_LOGICAL
      else if nm.has_duplicate_parameter then .error .ERROR_LOGICAL
      else parse_targets (pts ++ [⟨TType.TRANSIENT, nm, 0⟩]) ridx rest2
    | _ => .error .ERROR_LOGICAL
  | pts, ridx, Token.name nm :: rest2 =>
    if ¬ nm.valid then .error .ERROR_LOGICAL
    else if nm.has_duplicate_parameter then .error .ERROR_LOGICAL
    else parse_targets (pts ++ [⟨TType.FILE, nm, 0⟩]) ridx rest2
  | pts, ridx, toks => .ok (pts, ridx, toks)

/-- The post-dispatch checks of Parser::parse_rule (lines 1692-1739):
output redirection requires a non-hardcoded command; input redirection
requires a command. -/
def parse_rule_finish (pts : List Place_Param_Target) (ridx : Option Nat) (deps : List Dep)
    (command : Option String) (is_hardcode : Bool) (inp : Option Param_Name)
    (toks : List Token) : Except Err (Option RuleR × List Token) :=
  if ridx ≠ none ∧ command = none then .error .ERROR_LOGICAL
  else if ridx ≠ none ∧ command ≠ none ∧ is_hardcode then .error .ERROR_LOGICAL
  else if inp ≠ none ∧ command = none then .error .ERROR_LOGICAL
  else .ok (some (.plain pts deps command is_hardcode ridx inp), toks)

/-- The command/body dispatch of Parser::parse_rule (lines 1504-1690):
a command token, '=' followed by hardcoded content, a copy rule
('=' '!'* filename ';') with its checks in source order (parameters of
the source must appear in the target; then the ';'; then no output
redirection, a single target, and a FILE target; then append_copy), the
'?' and '&' errors after '=', a ';' for no command, or an error. -/
def parse_rule_tail (pts : List Place_Param_Target) (ridx : Option Nat) (had_colon : Bool)
    (deps : List Dep) (inp : Option Param_Name) (toks : List Token) :
    Except Err (Option RuleR × List Token) :=
  match toks with
  | [] => .error .ERROR_LOGICAL
  | Token.command c :: rest =>
    parse_rule_finish pts ridx deps (some c) false inp rest
  | Token.op '=' :: rest =>
    if had_colon then .error .ERROR_LOGICAL
    else
      match rest with
      | [] => .error .ERROR_LOGICAL
      | Token.command c :: rest2 =>
        if pts.length ≠ 1 then .error .ERROR_LOGICAL
        else if (headPPT pts).ttype = TType.TRANSIENT then .error .ERROR_LOGICAL
        else parse_rule_finish pts ridx deps (some c) true inp rest2
      | _ =>
        let (exclam, rest2) := skip_bangs rest
        match rest2 with
        | Token.name nc :: rest3 =>
          if ¬ nc.get_parameters.all
              (fun par => (headPPT pts).place_param_name.get_parameters.contains par) then
            .error .ERROR_LOGICAL
          else
            match rest3 with
            | Token.op ';' :: rest4 =>
              if ridx ≠ none then .error .ERROR_LOGICAL
              else if pts.length ≠ 1 then .error .ERROR_LOGICAL
              else if (headPPT pts).ttype ≠ TType.FILE then .error .ERROR_LOGICAL
              else
                .ok (some (.copyRule (headPPT pts)
                  (Parser.append_copy nc (headPPT pts).place_param_name) exclam), rest4)
            | _ => .error .ERROR_LOGICAL
        | Token.op '?' :: _ => .error .ERROR_LOGICAL
        | Token.op '&' :: _ => .error .ERROR_LOGICAL
        | _ => .error .ERROR_LOGICAL
  | Token.op ';' :: rest =>
    parse_rule_finish pts ridx deps none false inp rest
  | _ => .error .ERROR_LOGICAL

/-- Parser::parse_rule after the target loop (lines 1440-1740): check
that all targets carry the same parameter set, then parse the optional
':' dependency list and dispatch on the rule body. -/
def parse_rule_body (fuel : Nat) (pts : List Place_Param_Target) (ridx : Option Nat)
    (toks : List Token) : Except Err (Option RuleR × List Token) :=
  if ¬ same_parameters pts then .error .ERROR_LOGICAL
  else
    match toks with
    | [] => .error .ERROR_LOGICAL
    | Token.op ':' :: rest => do
      let (_, deps, inp, toks2) ← parse_expression_list fuel none rest
      parse_rule_tail pts ridx true deps inp toks2
    | _ => parse_rule_tail pts ridx false [] none toks

/-- Parser::parse_rule (lines 1305-1740): parse the targets, return
none when there are no targets (nullptr in the C++ code), otherwise
parse the rule body. -/
def parse_rule (fuel : Nat) (toks : List Token) : Except Err (Option RuleR × List Token) := do
  let (pts, ridx, toks1) ← parse_targets [] none toks
  if pts.length = 0 then .ok (none, toks1)
  else parse_rule_body fuel pts ridx toks1

/-- A Concatenated dependency containing one Direct target, used to
show that C1 fails on dependencies containing Concatenated nodes. -/
def c1dep : Dep :=
  .concatenated 0 Places.empty
    [.direct 0 Places.empty ⟨TType.FILE, ⟨"X", []⟩, 0⟩ 0 ""]

/-- A compound dependency with one persistent direct member and one
dynamic member, used as the concrete input of the C1 witness. -/
def c1wdep : Dep :=
  .compound F_PERSISTENT ⟨7, 0, 0⟩ 5
    [.direct F_TRIVIAL ⟨0, 0, 9⟩ ⟨TType.FILE, ⟨"A", []⟩, 0⟩ 0 "",
     .dynamic F_OPTIONAL ⟨0, 4, 0⟩ (.direct 0 Places.empty ⟨TType.FILE, ⟨"B", []⟩, 0⟩ 0 "")]

def c9wdep : Dep :=
  .compound 0 Places.empty 3
    [.direct F_VARIABLE Places.empty ⟨TType.FILE, ⟨"v", []⟩, 0⟩ 0 "V",
     .dynamic F_PERSISTENT Places.empty
       (.direct 0 Places.empty ⟨TType.FILE, ⟨"d", []⟩, 0⟩ 0 "")]

theorem Dep.size_pos (d : Dep) : 0 < d.size := by
  cases d <;> simp [Dep.size]

theorem Dep.size_add_flags_from (d : Dep) (f : Nat) (pl : Places) :
    (d.add_flags_from f pl).size = d.size := by
  cases d <;> rfl

theorem or_eq_zero_iff' {a b : Nat} : a ||| b = 0 ↔ a = 0 ∧ b = 0 := by
  constructor
  · intro h
    constructor
    · apply Nat.eq_of_testBit_eq
      intro i
      have h2 := congrArg (fun x => Nat.testBit x i) h
      simp only [Nat.testBit_or, Nat.zero_testBit] at h2 ⊢
      exact (Bool.or_eq_false_iff.mp h2).1
    · apply Nat.eq_of_testBit_eq
      intro i
      have h2 := congrArg (fun x => Nat.testBit x i) h
      simp only [Nat.testBit_or, Nat.zero_testBit] at h2 ⊢
      exact (Bool.or_eq_false_iff.mp h2).2
  · rintro ⟨rfl, rfl⟩
    rfl

theorem accPlaces_addFrom (P : OptPlaces) (g f : Nat) (q pl : Places) :
    accPlaces P (g ||| f) (placesAddFrom g q f pl) = accPlaces (accPlaces P f pl) g q := by
  unfold accPlaces placesAddFrom
  simp only [Nat.testBit_or]
  cases hg0 : g.testBit 0 <;> cases hg1 : g.testBit 1 <;> cases hg2 : g.testBit 2 <;>
    cases hf0 : f.testBit 0 <;> cases hf1 : f.testBit 1 <;> cases hf2 : f.testBit 2 <;>
    simp

theorem or_rot (a b c : Nat) : a ||| (b ||| c) = (a ||| c) ||| b := by
  rw [Nat.or_comm b c, Nat.or_assoc]

/-- Adding a compound's flags and places onto a child node, then
accumulating the child, is the same as accumulating the compound first
and then the unmodified child. -/
theorem leaves_add_flags_from (d : Dep) (f : Nat) (pl : Places) (F : Nat) (P : OptPlaces) :
    Dep.leaves F P (d.add_flags_from f pl) = Dep.leaves (F ||| f) (accPlaces P f pl) d := by
  cases d with
  | direct g q t p nm =>
    simp only [Dep.add_flags_from, Dep.leaves, accPlaces_addFrom, or_rot]
  | dynamic g q inner =>
    simp only [Dep.add_flags_from, Dep.leaves, accPlaces_addFrom, or_rot]
  | compound g q p ds =>
    simp only [Dep.add_flags_from, Dep.leaves, accPlaces_addFrom, or_rot]
  | concatenated g q ds =>
    simp only [Dep.add_flags_from, Dep.leaves, accPlaces_addFrom, or_rot]

theorem concat_free_add_flags_from (d : Dep) (f : Nat) (pl : Places) :
    (d.add_flags_from f pl).concat_free = d.concat_free := by
  cases d <;> rfl

theorem leavesList_append (F : Nat) (P : OptPlaces) (l1 l2 : List Dep) :
    leavesList F P (l1 ++ l2) = leavesList F P l1 + leavesList F P l2 := by
  induction l1 with
  | nil => simp [leavesList]
  | cons d ds ih => simp [leavesList, ih, add_assoc]

theorem leavesList_map_dynamic (F : Nat) (P : OptPlaces) (f : Nat) (pl : Places)
    (l : List Dep) :
    leavesList F P (l.map (fun d => Dep.dynamic f pl d)) =
      leavesList (F ||| f) (accPlaces P f pl) l := by
  induction l with
  | nil => rfl
  | cons d ds ih => simp [leavesList, Dep.leaves, ih]

/-- Splitting preserves the multiset of innermost Direct targets with
their accumulated flags and flag places, on Concatenated-free
dependencies (strong induction on the node count). -/
theorem splitLeavesAux :
    ∀ (n : Nat) (d : Dep), d.size ≤ n → d.concat_free = true → ∀ (F : Nat) (P : OptPlaces),
      leavesList F P d.split_compound_dependencies = Dep.leaves F P d := by
  intro n
  induction n with
  | zero =>
    intro d hd
    have := Dep.size_pos d
    omega
  | succ n ih =>
    intro d hd hcf F P
    cases d with
    | direct f pl t p nm =>
      simp [Dep.split_compound_dependencies, leavesList]
    | dynamic f pl inner =>
      have hsz : inner.size ≤ n := by
        simp only [Dep.size] at hd
        omega
      have hcf' : inner.concat_free = true := hcf
      rw [Dep.split_compound_dependencies, leavesList_map_dynamic, ih inner hsz hcf']
      rfl
    | compound f pl p ds =>
      have hsz : sizeListDep ds ≤ n := by
        simp only [Dep.size] at hd
        omega
      have hcfl : concatFreeList ds = true := hcf
      have hlist : ∀ (l : List Dep), sizeListDep l ≤ n → concatFreeList l = true →
          ∀ (F2 : Nat) (P2 : OptPlaces),
          leavesList F2 P2 (splitListDep f pl l) =
            leavesList (F2 ||| f) (accPlaces P2 f pl) l := by
        intro l
        induction l with
        | nil =>
          intro _ _ F2 P2
          simp [splitListDep, leavesList]
        | cons d2 ds2 ihl =>
          intro hsz2 hcf2 F2 P2
          simp only [concatFreeList, Bool.and_eq_true] at hcf2
          have h1 : (d2.add_flags_from f pl).size ≤ n := by
            rw [Dep.size_add_flags_from]
            simp only [sizeListDep] at hsz2
            omega
          have h2 : (d2.add_flags_from f pl).concat_free = true := by
            rw [concat_free_add_flags_from]
            exact hcf2.1
          rw [splitListDep, leavesList_append, ih _ h1 h2, leaves_add_flags_from]
          have h3 : sizeListDep ds2 ≤ n := by
            have := Dep.size_pos d2
            simp only [sizeListDep] at hsz2
            omega
          rw [ihl h3 hcf2.2]
          rfl
      rw [Dep.split_compound_dependencies, hlist ds hsz hcfl F P]
      rfl
    | concatenated f pl ds =>
      simp [Dep.concat_free] at hcf

/-- No element of the split of any dependency is a Compound node. -/
theorem splitNoCompoundAux :
    ∀ (n : Nat) (d : Dep), d.size ≤ n →
      ∀ e ∈ d.split_compound_dependencies, e.is_compound = false := by
  intro n
  induction n with
  | zero =>
    intro d hd
    have := Dep.size_pos d
    omega
  | succ n ih =>
    intro d hd e he
    cases d with
    | direct f pl t p nm =>
      simp only [Dep.split_compound_dependencies, List.mem_singleton] at he
      subst he
      rfl
    | dynamic f pl inner =>
      rw [Dep.split_compound_dependencies] at he
      simp only [List.mem_map] at he
      obtain ⟨c, _, rfl⟩ := he
      rfl
    | compound f pl p ds =>
      have hsz : sizeListDep ds ≤ n := by
        simp only [Dep.size] at hd
        omega
      rw [Dep.split_compound_dependencies] at he
      have hlist : ∀ (l : List Dep), sizeListDep l ≤ n →
          ∀ e2 ∈ splitListDep f pl l, e2.is_compound = false := by
        intro l
        induction l with
        | nil =>
          intro _ e2 he2
          simp [splitListDep] at he2
        | cons d2 ds2 ihl =>
          intro hsz2 e2 he2
          rw [splitListDep] at he2
          simp only [List.mem_append] at he2
          rcases he2 with he2 | he2
          · have h1 : (d2.add_flags_from f pl).size ≤ n := by
              rw [Dep.size_add_flags_from]
              simp only [sizeListDep] at hsz2
              omega
            exact ih _ h1 e2 he2
          · have h3 : sizeListDep ds2 ≤ n := by
              have := Dep.size_pos d2
              simp only [sizeListDep] at hsz2
              omega
            exact ihl h3 e2 he2
      exact hlist ds hsz e he
    | concatenated f pl ds =>
      simp [Dep.split_compound_dependencies] at he

theorem clean_mask_split {f : Nat} (hf : f &&& (F_READ ||| F_VARIABLE) = 0) :
    f &&& F_READ = 0 ∧ f &&& F_VARIABLE = 0 := by
  rw [Nat.and_or_distrib_left] at hf
  exact or_eq_zero_iff'.mp hf

theorem or_and_ne_zero_left {g f m : Nat} (hg : g &&& m ≠ 0) : (g ||| f) &&& m ≠ 0 := by
  rw [Nat.and_distrib_right]
  intro h
  exact hg (or_eq_zero_iff'.mp h).1

/-- add_flags(compound, false) with compound flags free of F_READ and
F_VARIABLE preserves the structural invariants. -/
theorem wf_add_flags_from {d : Dep} {f : Nat} (pl : Places)
    (hf : f &&& (F_READ ||| F_VARIABLE) = 0) (hd : d.wf = true) :
    (d.add_flags_from f pl).wf = true := by
  obtain ⟨hfr, hfv⟩ := clean_mask_split hf
  cases d with
  | direct g q t p nm =>
    simp only [Dep.add_flags_from, Dep.wf, Bool.and_eq_true, Bool.or_eq_true,
      decide_eq_true_eq] at hd ⊢
    refine ⟨hd.1, ?_⟩
    rcases hd.2 with h | ⟨h1, h2⟩
    · exact Or.inl h
    · exact Or.inr ⟨h1, or_and_ne_zero_left h2⟩
  | dynamic g q inner =>
    simp only [Dep.add_flags_from, Dep.wf, Bool.and_eq_true, decide_eq_true_eq] at hd ⊢
    refine ⟨⟨?_, ?_⟩, hd.2⟩
    · rw [Nat.and_distrib_right, hd.1.1, hfr]
      rfl
    · rw [Nat.and_distrib_right, hd.1.2, hfv]
      rfl
  | compound g q p ds =>
    simp only [Dep.add_flags_from, Dep.wf] at hd ⊢
    exact hd
  | concatenated g q ds =>
    simp only [Dep.add_flags_from, Dep.wf] at hd ⊢
    exact hd

/-- add_flags(compound, false) with clean compound flags preserves
compound-cleanness. -/
theorem compound_clean_add_flags_from {d : Dep} {f : Nat} (pl : Places)
    (hf : f &&& (F_READ ||| F_VARIABLE) = 0) (hd : d.compound_clean = true) :
    (d.add_flags_from f pl).compound_clean = true := by
  cases d with
  | direct g q t p nm => rfl
  | dynamic g q inner =>
    simpa only [Dep.add_flags_from, Dep.compound_clean] using hd
  | compound g q p ds =>
    simp only [Dep.add_flags_from, Dep.compound_clean, Bool.and_eq_true,
      decide_eq_true_eq] at hd ⊢
    refine ⟨?_, hd.2⟩
    rw [Nat.and_distrib_right, hd.1, hf]
    rfl
  | concatenated g q ds =>
    simpa only [Dep.add_flags_from, Dep.compound_clean] using hd

/-- Every element of the split of a well-formed, compound-clean
dependency is well-formed. -/
theorem splitWfAux :
    ∀ (n : Nat) (d : Dep), d.size ≤ n → d.wf = true → d.compound_clean = true →
      ∀ e ∈ d.split_compound_dependencies, e.wf = true := by
  intro n
  induction n with
  | zero =>
    intro d hd
    have := Dep.size_pos d
    omega
  | succ n ih =>
    intro d hd hwf hcl e he
    cases d with
    | direct f pl t p nm =>
      simp only [Dep.split_compound_dependencies, List.mem_singleton] at he
      subst he
      exact hwf
    | dynamic f pl inner =>
      rw [Dep.split_compound_dependencies] at he
      simp only [List.mem_map] at he
      obtain ⟨c, hc, rfl⟩ := he
      simp only [Dep.wf, Bool.and_eq_true, decide_eq_true_eq] at hwf ⊢
      have hsz : inner.size ≤ n := by
        simp only [Dep.size] at hd
        omega
      exact ⟨hwf.1, ih inner hsz hwf.2 hcl c hc⟩
    | compound f pl p ds =>
      rw [Dep.split_compound_dependencies] at he
      simp only [Dep.wf] at hwf
      simp only [Dep.compound_clean, Bool.and_eq_true, decide_eq_true_eq] at hcl
      have hsz : sizeListDep ds ≤ n := by
        simp only [Dep.size] at hd
        omega
      have hlist : ∀ (l : List Dep), sizeListDep l ≤ n → wfList l = true →
          compoundCleanList l = true →
          ∀ e2 ∈ splitListDep f pl l, e2.wf = true := by
        intro l
        induction l with
        | nil =>
          intro _ _ _ e2 he2
          simp [splitListDep] at he2
        | cons d2 ds2 ihl =>
          intro hsz2 hwf2 hcl2 e2 he2
          simp only [wfList, Bool.and_eq_true] at hwf2
          simp only [compoundCleanList, Bool.and_eq_true] at hcl2
          rw [splitListDep] at he2
          simp only [List.mem_append] at he2
          rcases he2 with he2 | he2
          · have h1 : (d2.add_flags_from f pl).size ≤ n := by
              rw [Dep.size_add_flags_from]
              simp only [sizeListDep] at hsz2
              omega
            exact ih _ h1 (wf_add_flags_from pl hcl.1 hwf2.1)
              (compound_clean_add_flags_from pl hcl.1 hcl2.1) e2 he2
          · have h3 : sizeListDep ds2 ≤ n := by
              have := Dep.size_pos d2
              simp only [sizeListDep] at hsz2
              omega
            exact ihl h3 hwf2.2 hcl2.2 e2 he2
      exact hlist ds hsz hwf hcl.2 e he
    | concatenated f pl ds =>
      simp [Dep.split_compound_dependencies] at he

/-- instantiate preserves the structural invariants: substitution
changes only the parameterized name inside the target, never the kind,
the flags or the variable name. -/
theorem instantiateWfAux :
    ∀ (n : Nat) (d : Dep), d.size ≤ n → ∀ (v : String → String) (d' : Dep),
      d.wf = true → Dep.instantiate v d = .ok d' → d'.wf = true := by
  intro n
  induction n with
  | zero =>
    intro d hd
    have := Dep.size_pos d
    omega
  | succ n ih =>
    intro d hd v d' hwf hinst
    cases d with
    | direct f pl t p nm =>
      rw [Dep.instantiate] at hinst
      split at hinst
      · exact Except.noConfusion hinst
      · injection hinst with h
        subst h
        simp only [Dep.wf, Place_Param_Target.instantiate, Bool.and_eq_true,
          Bool.or_eq_true, decide_eq_true_eq] at hwf ⊢
        exact hwf
    | dynamic f pl inner =>
      rw [Dep.instantiate] at hinst
      cases hrec : Dep.instantiate v inner with
      | error e =>
        rw [hrec] at hinst
        simp only [Bind.bind, Except.bind] at hinst
        exact Except.noConfusion hinst
      | ok c =>
        rw [hrec] at hinst
        simp only [Bind.bind, Except.bind] at hinst
        injection hinst with h
        subst h
        simp only [Dep.wf, Bool.and_eq_true, decide_eq_true_eq] at hwf ⊢
        have hsz : inner.size ≤ n := by
          simp only [Dep.size] at hd
          omega
        exact ⟨hwf.1, ih inner hsz v c hwf.2 hrec⟩
    | compound f pl p ds =>
      rw [Dep.instantiate] at hinst
      have hsz : sizeListDep ds ≤ n := by
        simp only [Dep.size] at hd
        omega
      simp only [Dep.wf] at hwf
      have hlist : ∀ (l : List Dep), sizeListDep l ≤ n → wfList l = true →
          ∀ (l' : List Dep), instantiateListDep v l = .ok l' → wfList l' = true := by
        intro l
        induction l with
        | nil =>
          intro _ _ l' hl'
          rw [instantiateListDep] at hl'
          injection hl' with h
          subst h
          rfl
        | cons d2 ds2 ihl =>
          intro hsz2 hwf2 l' hl'
          simp only [wfList, Bool.and_eq_true] at hwf2
          rw [instantiateListDep] at hl'
          cases h1 : Dep.instantiate v d2 with
          | error e =>
            rw [h1] at hl'
            simp only [Bind.bind, Except.bind] at hl'
            exact Except.noConfusion hl'
          | ok c =>
            rw [h1] at hl'
            simp only [Bind.bind, Except.bind] at hl'
            cases h2 : instantiateListDep v ds2 with
            | error e =>
              rw [h2] at hl'
              simp only [Bind.bind, Except.bind] at hl'
              exact Except.noConfusion hl'
            | ok cs =>
              rw [h2] at hl'
              simp only [Bind.bind, Except.bind] at hl'
              injection hl' with h
              subst h
              simp only [wfList, Bool.and_eq_true]
              have hs1 : d2.size ≤ n := by
                simp only [sizeListDep] at hsz2
                have := Dep.size_pos d2
                omega
              have hs2 : sizeListDep ds2 ≤ n := by
                simp only [sizeListDep] at hsz2
                have := Dep.size_pos d2
                omega
              exact ⟨ih d2 hs1 v c hwf2.1 h1, ihl hs2 hwf2.2 cs h2⟩
      cases hds : instantiateListDep v ds with
      | error e =>
        rw [hds] at hinst
        simp only [Bind.bind, Except.bind] at hinst
        exact Except.noConfusion hinst
      | ok ds' =>
        rw [hds] at hinst
        simp only [Bind.bind, Except.bind] at hinst
        injection hinst with h
        subst h
        simp only [Dep.wf]
        exact hlist ds hsz hwf ds' hds
    | concatenated f pl ds =>
      rw [Dep.instantiate] at hinst
      have hsz : sizeListDep ds ≤ n := by
        simp only [Dep.size] at hd
        omega
      simp only [Dep.wf] at hwf
      have hlist : ∀ (l : List Dep), sizeListDep l ≤ n → wfList l = true →
          ∀ (l' : List Dep), instantiateListDep v l = .ok l' → wfList l' = true := by
        intro l
        induction l with
        | nil =>
          intro _ _ l' hl'
          rw [instantiateListDep] at hl'
          injection hl' with h
          subst h
          rfl
        | cons d2 ds2 ihl =>
          intro hsz2 hwf2 l' hl'
          simp only [wfList, Bool.and_eq_true] at hwf2
          rw [instantiateListDep] at hl'
          cases h1 : Dep.instantiate v d2 with
          | error e =>
            rw [h1] at hl'
            simp only [Bind.bind, Except.bind] at hl'
            exact Except.noConfusion hl'
          | ok c =>
            rw [h1] at hl'
            simp only [Bind.bind, Except.bind] at hl'
            cases h2 : instantiateListDep v ds2 with
            | error e =>
              rw [h2] at hl'
              simp only [Bind.bind, Except.bind] at hl'
              exact Except.noConfusion hl'
            | ok cs =>
              rw [h2] at hl'
              simp only [Bind.bind, Except.bind] at hl'
              injection hl' with h
              subst h
              simp only [wfList, Bool.and_eq_true]
              have hs1 : d2.size ≤ n := by
                simp only [sizeListDep] at hsz2
                have := Dep.size_pos d2
                omega
              have hs2 : sizeListDep ds2 ≤ n := by
                simp only [sizeListDep] at hsz2
                have := Dep.size_pos d2
                omega
              exact ⟨ih d2 hs1 v c hwf2.1 h1, ihl hs2 hwf2.2 cs h2⟩
      cases hds : instantiateListDep v ds with
      | error e =>
        rw [hds] at hinst
        simp only [Bind.bind, Except.bind] at hinst
        exact Except.noConfusion hinst
      | ok ds' =>
        rw [hds] at hinst
        simp only [Bind.bind, Except.bind] at hinst
        injection hinst with h
        subst h
        simp only [Dep.wf]
        exact hlist ds hsz hwf ds' hds

theorem le_one_lt_two_pow_succ {x : Nat} (h : x ≤ 1) (k : Nat) : x < 2 ^ (k + 1) := by
  have h2 : 0 < 2 ^ k := Nat.pow_pos (by norm_num)
  rw [pow_succ]
  omega

theorem toNat_lt_two_pow_succ (b : Bool) (k : Nat) : b.toNat < 2 ^ (k + 1) :=
  le_one_lt_two_pow_succ (by cases b <;> simp) k

theorem toNat_shiftLeft_lt (b : Bool) (d : Nat) : (b.toNat <<< d) < 2 ^ (d + 1) := by
  rw [Nat.shiftLeft_eq]
  have h2 : 0 < 2 ^ d := Nat.pow_pos (by norm_num)
  have h3 : b.toNat ≤ 1 := by cases b <;> simp
  rw [pow_succ]
  nlinarith

theorem check_mkEmpty : Stack.mkEmpty.check := by decide

theorem check_ofFlags (f : Nat) : (Stack.ofFlags f).check := by
  unfold Stack.check Stack.ofFlags wordBits
  refine ⟨by simp, ?_, ?_, ?_⟩ <;> exact toNat_lt_two_pow_succ _ 0

theorem check_ofDepth {n : Nat} {s : Stack} (h : Stack.ofDepth n = .ok s) : s.check := by
  rw [Stack.ofDepth] at h
  split at h
  · exact Except.noConfusion h
  · injection h with h2
    subst h2
    rename_i hn
    simp only [wordBits, ge_iff_le, not_le] at hn
    refine ⟨by simp only [wordBits]; omega, ?_, ?_, ?_⟩ <;> exact Nat.pow_pos (by norm_num)

theorem check_add {s t : Stack} (hs : s.check) (ht : t.check) (hd : s.depth = t.depth) :
    (s.add t).check := by
  obtain ⟨h1, h2, h3, h4⟩ := hs
  obtain ⟨_, k2, k3, k4⟩ := ht
  rw [← hd] at k2 k3 k4
  exact ⟨h1, Nat.or_lt_two_pow h2 k2, Nat.or_lt_two_pow h3 k3, Nat.or_lt_two_pow h4 k4⟩

theorem mask_lt (d : Nat) : (1 <<< (d + 1)) - 1 < 2 ^ (d + 1) := by
  rw [Nat.one_shiftLeft]
  have : 0 < 2 ^ (d + 1) := Nat.pow_pos (by norm_num)
  omega

theorem check_add_neg {s t : Stack} (hs : s.check) (ht : t.check) (hd : s.depth = t.depth) :
    (s.add_neg t).check := by
  obtain ⟨h1, h2, h3, h4⟩ := hs
  obtain ⟨_, k2, k3, k4⟩ := ht
  rw [← hd] at k2 k3 k4
  exact ⟨h1,
    Nat.or_lt_two_pow h2 (Nat.xor_lt_two_pow (mask_lt s.depth) k2),
    Nat.or_lt_two_pow h3 (Nat.xor_lt_two_pow (mask_lt s.depth) k3),
    Nat.or_lt_two_pow h4 (Nat.xor_lt_two_pow (mask_lt s.depth) k4)⟩

theorem check_add_lowest {s : Stack} (hs : s.check) (f : Nat) : (s.add_lowest f).check := by
  obtain ⟨h1, h2, h3, h4⟩ := hs
  exact ⟨h1,
    Nat.or_lt_two_pow h2 (toNat_lt_two_pow_succ _ _),
    Nat.or_lt_two_pow h3 (toNat_lt_two_pow_succ _ _),
    Nat.or_lt_two_pow h4 (toNat_lt_two_pow_succ _ _)⟩

theorem check_add_highest {s : Stack} (hs : s.check) (f : Nat) : (s.add_highest f).check := by
  obtain ⟨h1, h2, h3, h4⟩ := hs
  exact ⟨h1,
    Nat.or_lt_two_pow h2 (toNat_shiftLeft_lt _ _),
    Nat.or_lt_two_pow h3 (toNat_shiftLeft_lt _ _),
    Nat.or_lt_two_pow h4 (toNat_shiftLeft_lt _ _)⟩

theorem check_rem_highest {s : Stack} (hs : s.check) (f : Nat) : (s.rem_highest f).check := by
  obtain ⟨h1, h2, h3, h4⟩ := hs
  exact ⟨h1,
    Nat.lt_of_le_of_lt Nat.and_le_left h2,
    Nat.lt_of_le_of_lt Nat.and_le_left h3,
    Nat.lt_of_le_of_lt Nat.and_le_left h4⟩

theorem check_add_highest_neg {s : Stack} (hs : s.check) (f : Nat) :
    (s.add_highest_neg f).check := by
  obtain ⟨h1, h2, h3, h4⟩ := hs
  exact ⟨h1,
    Nat.or_lt_two_pow h2 (toNat_shiftLeft_lt _ _),
    Nat.or_lt_two_pow h3 (toNat_shiftLeft_lt _ _),
    Nat.or_lt_two_pow h4 (toNat_shiftLeft_lt _ _)⟩

theorem xor_one_le_one {y : Nat} (h : y ≤ 1) : y ^^^ 1 ≤ 1 := by
  have h2 : y = 0 ∨ y = 1 := by omega
  rcases h2 with rfl | rfl <;> decide

theorem check_add_one_neg {s : Stack} (hs : s.check) (f : Nat) (hd : s.depth = 0) :
    (s.add_one_neg f).check := by
  obtain ⟨h1, h2, h3, h4⟩ := hs
  refine ⟨h1, ?_, ?_, ?_⟩ <;>
    exact Nat.or_lt_two_pow (by assumption)
      (le_one_lt_two_pow_succ (xor_one_le_one Nat.and_le_right) _)

theorem check_add_one_neg_stack {s t : Stack} (hs : s.check) (ht : t.check)
    (hd : s.depth = 0) (hd2 : t.depth = 0) : (s.add_one_neg_stack t).check := by
  obtain ⟨h1, h2, h3, h4⟩ := hs
  obtain ⟨_, k2, k3, k4⟩ := ht
  rw [hd2] at k2 k3 k4
  norm_num at k2 k3 k4
  refine ⟨h1, ?_, ?_, ?_⟩
  · exact Nat.or_lt_two_pow h2 (le_one_lt_two_pow_succ (xor_one_le_one (by omega)) _)
  · exact Nat.or_lt_two_pow h3 (le_one_lt_two_pow_succ (xor_one_le_one (by omega)) _)
  · exact Nat.or_lt_two_pow h4 (le_one_lt_two_pow_succ (xor_one_le_one (by omega)) _)

theorem push_shift_lt {b d : Nat} (hb : b < 2 ^ (d + 1)) (hd : d + 1 < 32) (hne : d ≠ 30) :
    b <<< 1 < 2 ^ (d + 1 + 1) ∧ b <<< 1 < 2 ^ 32 := by
  rw [Nat.shiftLeft_eq]
  have h1 : b * 2 ^ 1 < 2 ^ (d + 1 + 1) := by
    rw [pow_succ]
    norm_num
    omega
  constructor
  · exact h1
  · calc b * 2 ^ 1 < 2 ^ (d + 1 + 1) := h1
      _ ≤ 2 ^ 32 := Nat.pow_le_pow_right (by norm_num) (by omega)

theorem check_push {s r : Stack} (hs : s.check) (h : s.push = .ok r) : r.check := by
  obtain ⟨d, b0, b1, b2⟩ := s
  obtain ⟨h1, h2, h3, h4⟩ := hs
  simp only at h1 h2 h3 h4
  rw [Stack.push] at h
  split at h
  · exact Except.noConfusion h
  · rename_i hne
    simp only [wordBits] at hne h1
    injection h with h5
    subst h5
    have e2 := push_shift_lt h2 h1 hne
    have e3 := push_shift_lt h3 h1 hne
    have e4 := push_shift_lt h4 h1 hne
    refine ⟨?_, ?_, ?_, ?_⟩
    · show d + 1 + 1 < wordBits
      simp only [wordBits]
      omega
    · show (b0 <<< 1) % 2 ^ wordBits < 2 ^ (d + 1 + 1)
      simp only [wordBits]
      rw [Nat.mod_eq_of_lt e2.2]
      exact e2.1
    · show (b1 <<< 1) % 2 ^ wordBits < 2 ^ (d + 1 + 1)
      simp only [wordBits]
      rw [Nat.mod_eq_of_lt e3.2]
      exact e3.1
    · show (b2 <<< 1) % 2 ^ wordBits < 2 ^ (d + 1 + 1)
      simp only [wordBits]
      rw [Nat.mod_eq_of_lt e4.2]
      exact e4.1

theorem check_pop {s : Stack} (hs : s.check) (hd : 0 < s.depth) : s.pop.check := by
  obtain ⟨d, b0, b1, b2⟩ := s
  obtain ⟨h1, h2, h3, h4⟩ := hs
  simp only at h1 h2 h3 h4 hd
  have key : ∀ b : Nat, b < 2 ^ (d + 1) → b >>> 1 < 2 ^ (d - 1 + 1) := by
    intro b hb
    rw [Nat.shiftRight_eq_div_pow]
    have he : d - 1 + 1 = d := by omega
    rw [he]
    have hp : 2 ^ (d + 1) = 2 ^ d * 2 := by rw [pow_succ]
    rw [hp] at hb
    norm_num
    omega
  exact ⟨by simp only [Stack.pop]; omega, key _ h2, key _ h3, key _ h4⟩

theorem pop_push {s r : Stack} (hs : s.check) (h : s.push = .ok r) : r.pop = s := by
  obtain ⟨h1, h2, h3, h4⟩ := hs
  rw [Stack.push] at h
  split at h
  · exact Except.noConfusion h
  · rename_i hne
    simp only [wordBits] at hne h1
    injection h with h5
    subst h5
    obtain ⟨d, b0, b1, b2⟩ := s
    simp only at h1 h2 h3 h4 hne
    have key : ∀ b : Nat, b < 2 ^ (d + 1) → ((b <<< 1) % 2 ^ wordBits) >>> 1 = b := by
      intro b hb
      have e := push_shift_lt hb h1 hne
      simp only [wordBits]
      rw [Nat.mod_eq_of_lt e.2, Nat.shiftLeft_eq, Nat.shiftRight_eq_div_pow]
      norm_num
    simp only [Stack.pop, Stack.mk.injEq]
    exact ⟨by omega, key _ h2, key _ h3, key _ h4⟩

/-- The stack built by the Stack(shared_ptr<Dependency>) constructor
satisfies the consistency invariant whenever it is built at all. -/
theorem check_ofDepAux :
    ∀ (n : Nat) (d : Dep), d.size ≤ n →
      ∀ (s : Stack), s.check → ∀ r, Stack.ofDepAux s d = .ok r → r.check := by
  intro n
  induction n with
  | zero =>
    intro d hd
    have := Dep.size_pos d
    omega
  | succ n ih =>
    intro d hd s hs r h
    cases d with
    | dynamic f pl inner =>
      rw [Stack.ofDepAux] at h
      cases hp : (s.add_lowest f).push with
      | error e =>
        rw [hp] at h
        simp only [Bind.bind, Except.bind] at h
        exact Except.noConfusion h
      | ok s2 =>
        rw [hp] at h
        simp only [Bind.bind, Except.bind] at h
        have hsz : inner.size ≤ n := by
          simp only [Dep.size] at hd
          omega
        exact ih inner hsz s2 (check_push (check_add_lowest hs f) hp) r h
    | direct f pl t p nm =>
      have he : Stack.ofDepAux s (Dep.direct f pl t p nm) =
          .ok (s.add_lowest (Dep.direct f pl t p nm).get_flags) := rfl
      rw [he] at h
      injection h with h2
      subst h2
      exact check_add_lowest hs _
    | compound f pl p ds =>
      have he : Stack.ofDepAux s (Dep.compound f pl p ds) =
          .ok (s.add_lowest (Dep.compound f pl p ds).get_flags) := rfl
      rw [he] at h
      injection h with h2
      subst h2
      exact check_add_lowest hs _
    | concatenated f pl ds =>
      have he : Stack.ofDepAux s (Dep.concatenated f pl ds) =
          .ok (s.add_lowest (Dep.concatenated f pl ds).get_flags) := rfl
      rw [he] at h
      injection h with h2
      subst h2
      exact check_add_lowest hs _

theorem bitsAt_add_lowest (s : Stack) (f : Nat) (i : Nat) (hi : i < 3) :
    (s.add_lowest f).bitsAt i = s.bitsAt i ||| (f.testBit i).toNat := by
  interval_cases i <;> rfl

theorem bitsAt_lt {s : Stack} (hs : s.check) (i : Nat) (hi : i < 3) :
    s.bitsAt i < 2 ^ (s.depth + 1) := by
  obtain ⟨h1, h2, h3, h4⟩ := hs
  interval_cases i <;> assumption

theorem toNat_testBit (b : Bool) (j : Nat) : (b.toNat).testBit j = (b && decide (j = 0)) := by
  cases b
  · simp [Nat.zero_testBit]
  · show Nat.testBit 1 j = (true && decide (j = 0))
    rw [Bool.true_and, show (1 : Nat) = 2 ^ 0 from rfl, Nat.testBit_two_pow]
    simp [eq_comm]

theorem push_ok {s : Stack} (hne : s.depth ≠ 30) :
    s.push = .ok ⟨s.depth + 1, (s.b0 <<< 1) % 2 ^ wordBits, (s.b1 <<< 1) % 2 ^ wordBits,
      (s.b2 <<< 1) % 2 ^ wordBits⟩ := by
  rw [Stack.push, if_neg (by simp only [wordBits]; omega)]

theorem shift_mod_testBit {b d : Nat} (hb : b < 2 ^ (d + 1)) (hd : d + 1 < 32) (hne : d ≠ 30)
    (j : Nat) :
    ((b <<< 1) % 2 ^ wordBits).testBit j = (decide (j ≥ 1) && b.testBit (j - 1)) := by
  have e := push_shift_lt hb hd hne
  simp only [wordBits]
  rw [Nat.mod_eq_of_lt e.2, Nat.testBit_shiftLeft]


theorem ofDepAux_chain :
    ∀ (fs : List (Nat × Places)) (s : Stack) (fd : Nat) (pld : Places)
      (t : Place_Param_Target) (p : Place) (nm : String),
      s.check → s.depth + fs.length ≤ 30 →
      ∃ r, Stack.ofDepAux s (dynChain fs (.direct fd pld t p nm)) = .ok r ∧
        r.depth = s.depth + fs.length ∧ r.check ∧
        ∀ i < 3, ∀ j,
          (r.bitsAt i).testBit j =
            (chainBit fs fd i j ||
              (decide (fs.length ≤ j) && (s.bitsAt i).testBit (j - fs.length))) := by
  intro fs
  induction fs with
  | nil =>
    intro s fd pld t p nm hs hdep
    refine ⟨s.add_lowest fd, rfl, rfl, check_add_lowest hs fd, ?_⟩
    intro i hi j
    rw [bitsAt_add_lowest s fd i hi, Nat.testBit_or, toNat_testBit]
    simp only [chainBit, List.length_nil, Nat.le_zero_eq, Nat.sub_zero]
    by_cases hj : j = 0 <;> simp [hj, Bool.or_comm]
  | cons fpl fs ih =>
    intro s fd pld t p nm hs hdep
    obtain ⟨f, pl⟩ := fpl
    simp only [List.length_cons] at hdep
    have hne : s.depth ≠ 30 := by omega
    have hs1 : (s.add_lowest f).check := check_add_lowest hs f
    have hpush := push_ok (s := s.add_lowest f) (by simpa using hne)
    set s2 : Stack := ⟨(s.add_lowest f).depth + 1,
      ((s.add_lowest f).b0 <<< 1) % 2 ^ wordBits,
      ((s.add_lowest f).b1 <<< 1) % 2 ^ wordBits,
      ((s.add_lowest f).b2 <<< 1) % 2 ^ wordBits⟩ with hs2def
    have hs2depth : s2.depth = s.depth + 1 := rfl
    have hstep : Stack.ofDepAux s (dynChain ((f, pl) :: fs) (.direct fd pld t p nm)) =
        Stack.ofDepAux s2 (dynChain fs (.direct fd pld t p nm)) := by
      show Stack.ofDepAux s (.dynamic f pl (dynChain fs (.direct fd pld t p nm))) = _
      rw [Stack.ofDepAux, hpush]
      simp only [Bind.bind, Except.bind]
    have hs2 : s2.check := check_push hs1 (by rw [hpush])
    have hdep2 : s2.depth + fs.length ≤ 30 := by
      rw [hs2depth]
      omega
    obtain ⟨r, hr, hrd, hrc, hrb⟩ := ih s2 fd pld t p nm hs2 hdep2
    refine ⟨r, ?_, ?_, hrc, ?_⟩
    · rw [hstep]
      exact hr
    · rw [hrd, hs2depth]
      simp only [List.length_cons]
      omega
    intro i hi j
    rw [hrb i hi j]
    have hs2bits : ∀ j2, (s2.bitsAt i).testBit j2 =
        (decide (j2 ≥ 1) && ((s.add_lowest f).bitsAt i).testBit (j2 - 1)) := by
      intro j2
      have hb := bitsAt_lt hs1 i hi
      have hsb : (s2.bitsAt i) = (((s.add_lowest f).bitsAt i) <<< 1) % 2 ^ wordBits := by
        rw [hs2def]
        interval_cases i <;> rfl
      rw [hsb]
      exact shift_mod_testBit hb hs.1 hne j2
    rw [hs2bits, bitsAt_add_lowest s f i hi, Nat.testBit_or, toNat_testBit]
    simp only [List.length_cons]
    by_cases hj0 : j = 0
    · subst hj0
      have e1 : chainBit fs fd i 0 = fd.testBit i := by simp [chainBit]
      have e2 : chainBit ((f, pl) :: fs) fd i 0 = fd.testBit i := by simp [chainBit]
      have d1 : decide (fs.length + 1 ≤ 0) = false := by
        simp only [decide_eq_false_iff_not]
        omega
      rw [e1, e2, d1]
      by_cases hn : fs.length = 0
      · have d2 : decide (fs.length ≤ 0) = true := by simp [hn]
        have d3 : decide ((0:Nat) - fs.length ≥ 1) = false := by
          simp only [decide_eq_false_iff_not]
          omega
        rw [d2, d3]
        simp
      · have d2 : decide (fs.length ≤ 0) = false := by
          simp only [decide_eq_false_iff_not]
          omega
        rw [d2]
        simp
    · by_cases hjle : j ≤ fs.length
      · have e1 : chainBit fs fd i j =
            ((fs.getD (fs.length - j) (0, Places.empty)).1).testBit i := by
          simp only [chainBit, if_neg hj0]
          rw [if_pos hjle]
        have e2 : chainBit ((f, pl) :: fs) fd i j =
            ((fs.getD (fs.length - j) (0, Places.empty)).1).testBit i := by
          simp only [chainBit, List.length_cons, if_neg hj0]
          rw [if_pos (show j ≤ fs.length + 1 by omega),
            show fs.length + 1 - j = (fs.length - j) + 1 by omega, List.getD_cons_succ]
        have d1 : decide (fs.length + 1 ≤ j) = false := by
          simp only [decide_eq_false_iff_not]
          omega
        rw [e1, e2, d1]
        by_cases hj : j = fs.length
        · have d2 : decide (j - fs.length ≥ 1) = false := by
            simp only [decide_eq_false_iff_not]
            omega
          rw [d2]
          simp
        · have d3 : decide (fs.length ≤ j) = false := by
            simp only [decide_eq_false_iff_not]
            omega
          rw [d3]
          simp
      · by_cases hje : j = fs.length + 1
        · have e1 : chainBit fs fd i j = false := by
            simp only [chainBit, if_neg hj0]
            rw [if_neg (by omega)]
          have e2 : chainBit ((f, pl) :: fs) fd i j = f.testBit i := by
            simp only [chainBit, List.length_cons, if_neg hj0]
            rw [if_pos (by omega), show fs.length + 1 - j = 0 by omega,
              List.getD_cons_zero]
          have d1 : decide (fs.length ≤ j) = true := by
            simp only [decide_eq_true_eq]
            omega
          have d2 : decide (fs.length + 1 ≤ j) = true := by
            simp only [decide_eq_true_eq]
            omega
          rw [e1, e2, d1, d2,
            show j - fs.length = 1 by omega, show j - (fs.length + 1) = 0 by omega]
          simp only [ge_iff_le, le_refl, decide_eq_true_eq, Nat.sub_self]
          cases hb1 : (s.bitsAt i).testBit 0 <;> cases hb2 : f.testBit i <;> simp
        · have e1 : chainBit fs fd i j = false := by
            simp only [chainBit, if_neg hj0]
            rw [if_neg (by omega)]
          have e2 : chainBit ((f, pl) :: fs) fd i j = false := by
            simp only [chainBit, List.length_cons, if_neg hj0]
            rw [if_neg (by omega)]
          have d1 : decide (fs.length ≤ j) = true := by
            simp only [decide_eq_true_eq]
            omega
          have d2 : decide (fs.length + 1 ≤ j) = true := by
            simp only [decide_eq_true_eq]
            omega
          have d3 : decide (j - fs.length ≥ 1) = true := by
            simp only [decide_eq_true_eq]
            omega
          have d4 : decide (j - fs.length - 1 = 0) = false := by
            simp only [decide_eq_false_iff_not]
            omega
          rw [e1, e2, d1, d2, d3, d4,
            show j - fs.length - 1 = j - (fs.length + 1) by omega]
          simp

theorem bitAt_eq_toNat_testBit (x j : Nat) : (x >>> j) &&& 1 = (x.testBit j).toNat := by
  rw [Nat.testBit_to_div_mod, Nat.shiftRight_eq_div_pow, Nat.and_one_is_mod]
  rcases Nat.mod_two_eq_zero_or_one (x / 2 ^ j) with h | h <;> simp [h]

theorem or_small_add (a b c : Bool) :
    a.toNat ||| (b.toNat <<< 1) ||| (c.toNat <<< 2) = a.toNat + 2 * b.toNat + 4 * c.toNat := by
  cases a <;> cases b <;> cases c <;> decide

/-- get(j) in terms of the individual bits. -/
theorem Stack.get_eq (s : Stack) (j : Nat) :
    s.get j = (s.b0.testBit j).toNat + 2 * (s.b1.testBit j).toNat + 4 * (s.b2.testBit j).toNat := by
  unfold Stack.get
  rw [bitAt_eq_toNat_testBit, bitAt_eq_toNat_testBit, bitAt_eq_toNat_testBit, or_small_add]

/-- Masking with the three transitive flag bits in terms of testBit. -/
theorem and_seven (f : Nat) :
    f &&& 7 = (f.testBit 0).toNat + 2 * (f.testBit 1).toNat + 4 * (f.testBit 2).toNat := by
  have h : f &&& 7 = f % 2 ^ 3 := by
    apply Nat.eq_of_testBit_eq
    intro i
    rw [Nat.testBit_and, Nat.testBit_mod_two_pow]
    match i with
    | 0 => simp [show Nat.testBit 7 0 = true from rfl]
    | 1 => simp [show Nat.testBit 7 1 = true from rfl]
    | 2 => simp [show Nat.testBit 7 2 = true from rfl]
    | (i + 3) =>
      have h7 : (7 : Nat) < 2 ^ (i + 3) := by
        calc (7 : Nat) < 2 ^ 3 := by norm_num
          _ ≤ 2 ^ (i + 3) := Nat.pow_le_pow_right (by norm_num) (by omega)
      rw [Nat.testBit_lt_two_pow h7]
      simp [show ¬ (i + 3 < 3) by omega]
  have e0 : (f.testBit 0).toNat = f % 2 := by
    rw [Nat.testBit_to_div_mod]
    simp only [pow_zero, Nat.div_one]
    rcases Nat.mod_two_eq_zero_or_one f with h2 | h2 <;> simp [h2]
  have e1 : (f.testBit 1).toNat = f / 2 % 2 := by
    rw [Nat.testBit_to_div_mod]
    norm_num
    rcases Nat.mod_two_eq_zero_or_one (f / 2) with h2 | h2 <;> simp [h2]
  have e2 : (f.testBit 2).toNat = f / 4 % 2 := by
    rw [Nat.testBit_to_div_mod]
    norm_num
    rcases Nat.mod_two_eq_zero_or_one (f / 4) with h2 | h2 <;> simp [h2]
  rw [h, e0, e1, e2]
  omega

/-- The C++ behaviour of Direct_Dependency::instantiate written as one
equation: the target name is substituted, and ERROR_LOGICAL is thrown
exactly when F_VARIABLE is set and the substituted name contains '='. -/
theorem instantiate_direct_eq (f : Nat) (pl : Places) (t : Place_Param_Target) (p : Place)
    (nm : String) (v : String → String) :
    Dep.instantiate v (.direct f pl t p nm) =
      if f &&& F_VARIABLE ≠ 0 ∧ '=' ∈ (t.place_param_name.render v).data then
        .error .ERROR_LOGICAL
      else
        .ok (.direct f pl ⟨t.ttype, ⟨t.place_param_name.render v, []⟩, t.place⟩ p nm) := by
  rw [Dep.instantiate]
  rfl

/-- C2: rather than passing a Concatenated dependency through unchanged,
split_compound_dependencies hits assert(false), marked "TODO not yet
implemented"; in the released NDEBUG build the assertion is compiled
out and the branch pushes nothing, so the Concatenated node is dropped
from the output list entirely. -/
theorem c2_concatenated_dropped :
    Dep.split_compound_dependencies (.concatenated 0 Places.empty []) = [] := by
  rw [Dep.split_compound_dependencies]

/-- C4 counterexample: in src/flags.hh the transitive flags are the
first C_TRANSITIVE = 4 flags, which include I_RESULT_ONLY in addition
to PERSISTENT, OPTIONAL and TRIVIAL, while only the first C_PLACED = 3
flags carry a place; hence the number of placed flags differs from the
number of transitive flags there. -/
theorem c4_counterexample :
    flags_hh.C_TRANSITIVE = 4 ∧ flags_hh.C_PLACED = 3 ∧
      flags_hh.I_RESULT_ONLY < flags_hh.C_TRANSITIVE ∧
      flags_hh.C_PLACED ≠ flags_hh.C_TRANSITIVE := by
  refine ⟨rfl, rfl, by decide, by decide⟩

/-- C4 (amended): in the flag enum of dependency.hh, which the
dependency classes use, exactly the first C_TRANSITIVE = 3 flags,
namely PERSISTENT, OPTIONAL and TRIVIAL, are transitive, and the places
array of Single_Dependency has exactly C_TRANSITIVE entries, so there
the placed flags coincide with the transitive flags; in the flags.hh
revision, C_TRANSITIVE = 4 while C_PLACED = 3. -/
theorem c4_transitive_flags :
    C_TRANSITIVE = 3 ∧ I_PERSISTENT = 0 ∧ I_OPTIONAL = 1 ∧ I_TRIVIAL = 2 ∧
      (∀ i, i < C_TRANSITIVE ↔ (i = I_PERSISTENT ∨ i = I_OPTIONAL ∨ i = I_TRIVIAL)) ∧
      flags_hh.C_PLACED = 3 ∧ flags_hh.C_TRANSITIVE = 4 := by
  refine ⟨rfl, rfl, rfl, rfl, ?_, rfl, rfl⟩
  intro i
  simp only [C_TRANSITIVE, I_PERSISTENT, I_OPTIONAL, I_TRIVIAL]
  omega

/-- C5: Direct_Dependency::instantiate returns a new dependency whose
name has every parameter substituted by the valuation (the rendered
name t0 v(p1) t1 ... under the binding), and throws ERROR_LOGICAL
exactly when the dependency carries F_VARIABLE and the substituted name
contains '='. -/
theorem c5_instantiate (f : Nat) (pl : Places) (t : Place_Param_Target) (p : Place)
    (nm : String) (v : String → String) :
    (Dep.instantiate v (.direct f pl t p nm) = .error .ERROR_LOGICAL ↔
      (f &&& F_VARIABLE ≠ 0 ∧ '=' ∈ (t.place_param_name.render v).data)) ∧
    (¬ (f &&& F_VARIABLE ≠ 0 ∧ '=' ∈ (t.place_param_name.render v).data) →
      Dep.instantiate v (.direct f pl t p nm) =
        .ok (.direct f pl ⟨t.ttype, ⟨t.place_param_name.render v, []⟩, t.place⟩ p nm)) := by
  rw [instantiate_direct_eq]
  by_cases hc : f &&& F_VARIABLE ≠ 0 ∧ '=' ∈ (t.place_param_name.render v).data
  · rw [if_pos hc]
    exact ⟨⟨fun _ => hc, fun _ => rfl⟩, fun hn => absurd hc hn⟩
  · rw [if_neg hc]
    exact ⟨⟨fun h => Except.noConfusion h, fun h => absurd h hc⟩, fun _ => rfl⟩

theorem c5_instantiate_witness :
    Dep.instantiate (fun _ => "val") (.direct F_VARIABLE Places.empty
      ⟨TType.FILE, ⟨"a=", []⟩, 0⟩ 0 "x") = .error .ERROR_LOGICAL ∧
    Dep.instantiate (fun _ => "val") (.direct 0 Places.empty
      ⟨TType.FILE, ⟨"a-", [("p", ".c")]⟩, 0⟩ 0 "") =
      .ok (.direct 0 Places.empty ⟨TType.FILE, ⟨"a-val.c", []⟩, 0⟩ 0 "") := by
  constructor
  · exact (c5_instantiate F_VARIABLE Places.empty ⟨TType.FILE, ⟨"a=", []⟩, 0⟩ 0 "x"
      (fun _ => "val")).1.mpr (by constructor <;> decide)
  · have h := (c5_instantiate 0 Places.empty ⟨TType.FILE, ⟨"a-", [("p", ".c")]⟩, 0⟩ 0 ""
      (fun _ => "val")).2 (by intro hcon; exact absurd hcon.1 (by decide))
    rw [h]
    have hr : (Param_Name.render ⟨"a-", [("p", ".c")]⟩ (fun _ => "val")) = "a-val.c" := by
      decide
    rw [hr]

/-- C1 counterexample: on a dependency containing a Concatenated node,
split_compound_dependencies does not preserve the multiset of innermost
Direct targets: the input has one innermost Direct target X, but the
output list is empty (the Concatenated branch of the code is
assert(false) "TODO not yet implemented" and pushes nothing). -/
theorem c1_counterexample :
    Dep.split_compound_dependencies c1dep = [] ∧
      Dep.leaves 0 OptPlaces.none3 c1dep =
        {(⟨TType.FILE, ⟨"X", []⟩, 0⟩, 0, OptPlaces.none3)} := by
  constructor
  · rw [c1dep, Dep.split_compound_dependencies]
  · decide

/-- C1 (amended): for every dependency containing no Concatenated node,
split_compound_dependencies returns a list in which no element is a
Compound dependency, and the multiset of innermost Direct targets,
paired with the accumulated flags (the bitwise OR along the original
nesting path) and the accumulated transitive-flag places (a deeper
node's place wins, i.e. an already-set place of a child is never
overwritten by an enclosing compound's place), is preserved. -/
theorem c1_split_compound (d : Dep) (h : d.concat_free = true) :
    (∀ e ∈ d.split_compound_dependencies, e.is_compound = false) ∧
      leavesList 0 OptPlaces.none3 d.split_compound_dependencies =
        Dep.leaves 0 OptPlaces.none3 d :=
  ⟨splitNoCompoundAux d.size d le_rfl,
   splitLeavesAux d.size d le_rfl h 0 OptPlaces.none3⟩

theorem c1_split_compound_witness :
    ((∀ e ∈ c1wdep.split_compound_dependencies, e.is_compound = false) ∧
      leavesList 0 OptPlaces.none3 c1wdep.split_compound_dependencies =
        Dep.leaves 0 OptPlaces.none3 c1wdep) ∧
      Dep.leaves 0 OptPlaces.none3 c1wdep =
        {(⟨TType.FILE, ⟨"A", []⟩, 0⟩, F_PERSISTENT ||| F_TRIVIAL, ⟨some 7, none, some 9⟩),
         (⟨TType.FILE, ⟨"B", []⟩, 0⟩, F_PERSISTENT ||| F_OPTIONAL, ⟨some 7, some 4, none⟩)} :=
  ⟨c1_split_compound c1wdep (by decide), by decide⟩

/-- C3 counterexample: a stack of depth 30 exists (the depth
constructor accepts 30), but push on it throws ERROR_FATAL even though
the resulting depth 31 would not exceed the claimed maximum of
wordBits - 1 = 31; and the depth constructor rejects 31, so a stack of
depth 31 cannot be built this way. -/
theorem c3_counterexample :
    Stack.ofDepth 30 = .ok ⟨30, 0, 0, 0⟩ ∧
      (Stack.mk 30 0 0 0).push = .error .ERROR_FATAL ∧
      Stack.ofDepth 31 = .error .ERROR_FATAL := by
  refine ⟨rfl, rfl, rfl⟩

/-- C3 (amended): the flag-stack representation allows dynamic depth up
to 30, not 31: for every stack whose depth is at most 29, push succeeds
and increases the depth by one; Stack(depth, 0) throws ERROR_FATAL for
every depth of at least wordBits - 1 = 31 and push throws ERROR_FATAL
at depth wordBits - 2 = 30; a stack of depth 30 can be built. -/
theorem c3_depth_limit :
    (∀ s : Stack, s.depth ≤ 29 → ∃ s2, s.push = .ok s2 ∧ s2.depth = s.depth + 1) ∧
    (∀ n : Nat, 31 ≤ n → Stack.ofDepth n = .error .ERROR_FATAL) ∧
    (∀ s : Stack, s.depth = 30 → s.push = .error .ERROR_FATAL) ∧
    (∃ s : Stack, Stack.ofDepth 30 = .ok s ∧ s.depth = 30) := by
  refine ⟨?_, ?_, ?_, ⟨⟨30, 0, 0, 0⟩, rfl, rfl⟩⟩
  · intro s h
    exact ⟨_, push_ok (by omega), rfl⟩
  · intro n h
    rw [Stack.ofDepth, if_pos (by simp only [wordBits]; omega)]
  · intro s h
    rw [Stack.push, if_pos (by simp only [wordBits]; omega)]

theorem c3_depth_limit_witness :
    ((Stack.mk 29 0 0 0).depth ≤ 29 ∧
      ∃ s2, (Stack.mk 29 0 0 0).push = .ok s2 ∧ s2.depth = (Stack.mk 29 0 0 0).depth + 1) ∧
    ((31:Nat) ≤ 31 ∧ Stack.ofDepth 31 = .error .ERROR_FATAL) ∧
    ((Stack.mk 30 0 0 0).depth = 30 ∧ (Stack.mk 30 0 0 0).push = .error .ERROR_FATAL) :=
  ⟨⟨by decide, c3_depth_limit.1 ⟨29, 0, 0, 0⟩ (by decide)⟩,
   ⟨le_rfl, c3_depth_limit.2.1 31 le_rfl⟩,
   ⟨rfl, c3_depth_limit.2.2.1 ⟨30, 0, 0, 0⟩ rfl⟩⟩

/-- C10: every Stack constructor and operation preserves the
consistency invariant of Stack::check (depth + 1 below the bit width of
int, and for each transitive flag only the lowest depth + 1 bits set),
under the depth preconditions the code asserts: equal depths for add
and add_neg, depth 0 for add_one_neg, positive depth for pop, and
success of push; and pop after a successful push returns the original
stack. -/
theorem c10_stack_check :
    Stack.mkEmpty.check ∧
    (∀ f : Nat, (Stack.ofFlags f).check) ∧
    (∀ (n : Nat) (s : Stack), Stack.ofDepth n = .ok s → s.check) ∧
    (∀ (d : Dep) (s : Stack), Stack.ofDep d = .ok s → s.check) ∧
    (∀ s t : Stack, s.check → t.check → s.depth = t.depth → (s.add t).check) ∧
    (∀ s t : Stack, s.check → t.check → s.depth = t.depth → (s.add_neg t).check) ∧
    (∀ (s : Stack) (f : Nat), s.check → (s.add_lowest f).check) ∧
    (∀ (s : Stack) (f : Nat), s.check → (s.add_highest f).check) ∧
    (∀ (s : Stack) (f : Nat), s.check → (s.rem_highest f).check) ∧
    (∀ (s : Stack) (f : Nat), s.check → (s.add_highest_neg f).check) ∧
    (∀ (s : Stack) (f : Nat), s.check → s.depth = 0 → (s.add_one_neg f).check) ∧
    (∀ s t : Stack, s.check → t.check → s.depth = 0 → t.depth = 0 →
      (s.add_one_neg_stack t).check) ∧
    (∀ s r : Stack, s.check → s.push = .ok r → r.check) ∧
    (∀ s : Stack, s.check → 0 < s.depth → s.pop.check) ∧
    (∀ s r : Stack, s.check → s.push = .ok r → r.pop = s) :=
  ⟨check_mkEmpty, check_ofFlags,
   fun _ s h => check_ofDepth h,
   fun d s h => check_ofDepAux d.size d le_rfl ⟨0, 0, 0, 0⟩ check_mkEmpty s h,
   fun _ _ hs ht hd => check_add hs ht hd,
   fun _ _ hs ht hd => check_add_neg hs ht hd,
   fun _ f hs => check_add_lowest hs f,
   fun _ f hs => check_add_highest hs f,
   fun _ f hs => check_rem_highest hs f,
   fun _ f hs => check_add_highest_neg hs f,
   fun _ f hs hd => check_add_one_neg hs f hd,
   fun _ _ hs ht hd hd2 => check_add_one_neg_stack hs ht hd hd2,
   fun _ _ hs h => check_push hs h,
   fun _ hs hd => check_pop hs hd,
   fun _ _ hs h => pop_push hs h⟩

theorem c10_stack_check_witness :
    ((Stack.mk 1 2 3 0).check ∧ (Stack.mk 1 1 0 2).check ∧
      ((Stack.mk 1 2 3 0).add (Stack.mk 1 1 0 2)).check ∧
      ((Stack.mk 1 2 3 0).add_neg (Stack.mk 1 1 0 2)).check ∧
      ((Stack.mk 1 2 3 0).add_lowest 5).check ∧
      ((Stack.mk 1 2 3 0).add_highest 5).check ∧
      ((Stack.mk 1 2 3 0).rem_highest 5).check ∧
      ((Stack.mk 1 2 3 0).add_highest_neg 5).check) ∧
    ((Stack.mk 0 1 0 1).check ∧ ((Stack.mk 0 1 0 1).add_one_neg 2).check ∧
      ((Stack.mk 0 1 0 1).add_one_neg_stack (Stack.mk 0 0 1 1)).check) ∧
    ((Stack.mk 1 2 3 0).push = .ok (Stack.mk 2 4 6 0) ∧ (Stack.mk 2 4 6 0).check ∧
      (Stack.mk 2 4 6 0).pop = Stack.mk 1 2 3 0) := by
  have h1 : (Stack.mk 1 2 3 0).check := by decide
  have h2 : (Stack.mk 1 1 0 2).check := by decide
  have h3 : (Stack.mk 0 1 0 1).check := by decide
  have h4 : (Stack.mk 0 0 1 1).check := by decide
  have hp : (Stack.mk 1 2 3 0).push = .ok (Stack.mk 2 4 6 0) := rfl
  refine ⟨⟨h1, h2, ?_, ?_, ?_, ?_, ?_, ?_⟩, ⟨h3, ?_, ?_⟩, ⟨hp, ?_, ?_⟩⟩
  · exact c10_stack_check.2.2.2.2.1 _ _ h1 h2 rfl
  · exact c10_stack_check.2.2.2.2.2.1 _ _ h1 h2 rfl
  · exact c10_stack_check.2.2.2.2.2.2.1 _ 5 h1
  · exact c10_stack_check.2.2.2.2.2.2.2.1 _ 5 h1
  · exact c10_stack_check.2.2.2.2.2.2.2.2.1 _ 5 h1
  · exact c10_stack_check.2.2.2.2.2.2.2.2.2.1 _ 5 h1
  · exact c10_stack_check.2.2.2.2.2.2.2.2.2.2.1 _ 2 h3 rfl
  · exact c10_stack_check.2.2.2.2.2.2.2.2.2.2.2.1 _ _ h3 h4 rfl rfl
  · exact c10_stack_check.2.2.2.2.2.2.2.2.2.2.2.2.1 _ _ h1 hp
  · exact c10_stack_check.2.2.2.2.2.2.2.2.2.2.2.2.2.2 _ _ h1 hp

/-- C6: for a simple dependency of n Dynamic wrappers (n at most the
depth limit 30) around a Direct dependency, the Stack built by
Stack(shared_ptr<Dependency>) has depth n, and get(j) returns
exactly the transitive flag bits recorded at nesting level j: the
innermost Direct dependency's flags at level 0 and the wrapper flags at
levels 1 to n, the outermost wrapper at level n. -/
theorem c6_stack_of_dynamic_chain (fs : List (Nat × Places)) (fd : Nat) (pld : Places)
    (t : Place_Param_Target) (p : Place) (nm : String) (h : fs.length ≤ 30) :
    ∃ r, Stack.ofDep (dynChain fs (.direct fd pld t p nm)) = .ok r ∧
      r.depth = fs.length ∧
      ∀ j ≤ fs.length, r.get j =
        (if j = 0 then fd else (fs.getD (fs.length - j) (0, Places.empty)).1) &&&
          (F_PERSISTENT ||| F_OPTIONAL ||| F_TRIVIAL) := by
  obtain ⟨r, hr, hrd, hrc, hrb⟩ :=
    ofDepAux_chain fs ⟨0, 0, 0, 0⟩ fd pld t p nm check_mkEmpty (by simpa using h)
  refine ⟨r, hr, by simpa using hrd, ?_⟩
  intro j hj
  have hmask : (F_PERSISTENT ||| F_OPTIONAL ||| F_TRIVIAL) = 7 := by decide
  rw [hmask, Stack.get_eq, and_seven]
  have h0 : ∀ i, i < 3 → (r.bitsAt i).testBit j = chainBit fs fd i j := by
    intro i hi
    rw [hrb i hi j]
    have hz : ((Stack.mk 0 0 0 0).bitsAt i) = 0 := by interval_cases i <;> rfl
    rw [hz, Nat.zero_testBit]
    simp
  have hcb : ∀ i, chainBit fs fd i j =
      (if j = 0 then fd else (fs.getD (fs.length - j) (0, Places.empty)).1).testBit i := by
    intro i
    by_cases hj0 : j = 0
    · simp [chainBit, hj0]
    · rw [if_neg hj0]
      simp only [chainBit, if_neg hj0]
      rw [if_pos hj]
  have e0 := h0 0 (by norm_num)
  have e1 := h0 1 (by norm_num)
  have e2 := h0 2 (by norm_num)
  rw [show r.bitsAt 0 = r.b0 from rfl] at e0
  rw [show r.bitsAt 1 = r.b1 from rfl] at e1
  rw [show r.bitsAt 2 = r.b2 from rfl] at e2
  rw [e0, e1, e2, hcb 0, hcb 1, hcb 2]

theorem c6_stack_of_dynamic_chain_witness :
    ([(F_OPTIONAL, Places.empty)].length ≤ 30 ∧
      ∃ r, Stack.ofDep (dynChain [(F_OPTIONAL, Places.empty)]
        (.direct F_PERSISTENT Places.empty ⟨TType.FILE, ⟨"X", []⟩, 0⟩ 0 "")) = .ok r ∧
        r.depth = 1 ∧
        ∀ j ≤ 1, r.get j =
          (if j = 0 then F_PERSISTENT else
            ([(F_OPTIONAL, Places.empty)].getD (1 - j) (0, Places.empty)).1) &&&
            (F_PERSISTENT ||| F_OPTIONAL ||| F_TRIVIAL)) ∧
    Stack.ofDep (dynChain [(F_OPTIONAL, Places.empty)]
      (.direct F_PERSISTENT Places.empty ⟨TType.FILE, ⟨"X", []⟩, 0⟩ 0 "")) =
      .ok ⟨1, 1, 2, 0⟩ ∧
    (Stack.mk 1 1 2 0).get 0 = F_PERSISTENT ∧ (Stack.mk 1 1 2 0).get 1 = F_OPTIONAL :=
  ⟨⟨by decide,
    c6_stack_of_dynamic_chain [(F_OPTIONAL, Places.empty)] F_PERSISTENT Places.empty
      ⟨TType.FILE, ⟨"X", []⟩, 0⟩ 0 "" (by decide)⟩,
   rfl, by decide, by decide⟩

theorem renderRest_append (v : String → String) (l1 l2 : List (String × String)) :
    renderRest v (l1 ++ l2) = renderRest v l1 ++ renderRest v l2 := by
  induction l1 with
  | nil => simp [renderRest]
  | cons pt r ih => simp [renderRest, ih, String.append_assoc]

theorem renderRest_lastTextApp (v : String → String) (l : List (String × String))
    (s : String) (h : l ≠ []) :
    renderRest v (lastTextApp l s) = renderRest v l ++ s := by
  induction l with
  | nil => exact absurd rfl h
  | cons pt r ih =>
    obtain ⟨p2, t2⟩ := pt
    cases r with
    | nil => simp [lastTextApp, renderRest, String.append_assoc]
    | cons y ys =>
      simp only [lastTextApp, renderRest]
      rw [ih (by simp)]
      simp [renderRest, String.append_assoc]

theorem render_append_text (pn : Param_Name) (s : String) (v : String → String) :
    (pn.append_text s).render v = pn.render v ++ s := by
  obtain ⟨t0, rest⟩ := pn
  cases rest with
  | nil => simp [Param_Name.append_text, Param_Name.render, renderRest, String.append_assoc]
  | cons pt r =>
    simp only [Param_Name.append_text, Param_Name.render]
    rw [renderRest_lastTextApp v (pt :: r) s (by simp)]
    simp [String.append_assoc]

theorem render_append (pn q : Param_Name) (v : String → String) :
    (pn.append q).render v = pn.render v ++ q.render v := by
  have key : (pn.append_text q.t0).render v = pn.render v ++ q.t0 :=
    render_append_text pn q.t0 v
  show ((pn.append_text q.t0).t0 ++ renderRest v ((pn.append_text q.t0).rest ++ q.rest)) = _
  rw [renderRest_append, ← String.append_assoc]
  show ((pn.append_text q.t0).render v) ++ renderRest v q.rest = _
  rw [key, String.append_assoc]
  rfl

theorem afterLastSlash_eq_none (cs : List Char) :
    afterLastSlash cs = none ↔ '/' ∉ cs := by
  induction cs with
  | nil => simp [afterLastSlash]
  | cons c r ih =>
    rw [afterLastSlash]
    cases h : afterLastSlash r with
    | some t =>
      have hr : '/' ∈ r := by
        by_contra hn
        rw [ih.mpr hn] at h
        exact Option.noConfusion h
      simp [hr]
    | none =>
      have hr : '/' ∉ r := ih.mp h
      by_cases hc : c = '/'
      · simp [hc]
      · have h2 : ('/' : Char) ≠ c := fun he => hc he.symm
        simp only [if_neg hc]
        simp [List.mem_cons, hr, h2]

theorem findLastSlashTexts_eq_none (l : List String) (h : ∀ t2 ∈ l, '/' ∉ t2.data) :
    findLastSlashTexts l = none := by
  induction l with
  | nil => rfl
  | cons t r ih =>
    rw [findLastSlashTexts, ih (fun t2 ht2 => h t2 (List.mem_cons_of_mem t ht2))]
    have ht : strAfterLastSlash t = none := by
      rw [strAfterLastSlash, (afterLastSlash_eq_none t.data).mpr (h t (by simp))]
    rw [ht]

/-- C7: when the copy-rule source name ends in '/', append_copy appends
the part of the target name after the target's last '/' (parameters are
not considered when looking for slashes); when the target name's texts
contain no '/', the entire target name is appended.  The appended part
is characterized by the spec-level Param_Name.tailAfterLastSlash, both
structurally and on rendered names. -/
theorem c7_append_copy (toN fromN : Param_Name)
    (h : toN.last_text.length ≠ 0 ∧ toN.last_text.back = '/') :
    Parser.append_copy toN fromN = toN.append fromN.tailAfterLastSlash ∧
    (∀ v, (Parser.append_copy toN fromN).render v =
      toN.render v ++ fromN.tailAfterLastSlash.render v) ∧
    ((∀ t2 ∈ fromN.get_texts, '/' ∉ t2.data) →
      Parser.append_copy toN fromN = toN.append fromN) := by
  have h1 : Parser.append_copy toN fromN = toN.append fromN.tailAfterLastSlash := by
    rw [Parser.append_copy, if_neg (not_not_intro h)]
    unfold Param_Name.tailAfterLastSlash
    cases hf : findLastSlashTexts fromN.get_texts with
    | none => rfl
    | some pair =>
      obtain ⟨i, tail⟩ := pair
      rfl
  refine ⟨h1, ?_, ?_⟩
  · intro v
    rw [h1, render_append]
  · intro hns
    rw [h1]
    have h2 : fromN.tailAfterLastSlash = fromN := by
      rw [Param_Name.tailAfterLastSlash, findLastSlashTexts_eq_none fromN.get_texts hns]
    rw [h2]

theorem c7_append_copy_witness :
    ((Param_Name.mk "src/" []).last_text.length ≠ 0 ∧
      (Param_Name.mk "src/" []).last_text.back = '/') ∧
    Parser.append_copy ⟨"src/", []⟩ ⟨"out/foo", []⟩ =
      (Param_Name.mk "src/" []).append (Param_Name.tailAfterLastSlash ⟨"out/foo", []⟩) ∧
    Parser.append_copy ⟨"src/", []⟩ ⟨"out/foo", []⟩ = ⟨"src/foo", []⟩ ∧
    (Parser.append_copy ⟨"src/", []⟩ ⟨"out/foo", []⟩).render (fun x => x) = "src/foo" :=
  ⟨by decide, (c7_append_copy ⟨"src/", []⟩ ⟨"out/foo", []⟩ (by decide)).1,
   by decide, by decide⟩

theorem skip_bangs_snd_name (k : Nat) (nc : Param_Name) (r : List Token) :
    (skip_bangs (List.replicate k (Token.op '!') ++ Token.name nc :: r)).2 =
      Token.name nc :: r := by
  induction k with
  | zero => rfl
  | succ k ih =>
    rw [List.replicate_succ]
    show (skip_bangs (Token.op '!' ::
      (List.replicate k (Token.op '!') ++ Token.name nc :: r))).2 = _
    show (skip_bangs (List.replicate k (Token.op '!') ++ Token.name nc :: r)).2 = _
    exact ih

theorem skip_bangs_snd_q (k : Nat) (r : List Token) :
    (skip_bangs (List.replicate k (Token.op '!') ++ Token.op '?' :: r)).2 =
      Token.op '?' :: r := by
  induction k with
  | zero => rfl
  | succ k ih =>
    rw [List.replicate_succ]
    show (skip_bangs (Token.op '!' ::
      (List.replicate k (Token.op '!') ++ Token.op '?' :: r))).2 = _
    show (skip_bangs (List.replicate k (Token.op '!') ++ Token.op '?' :: r)).2 = _
    exact ih

theorem skip_bangs_snd_amp (k : Nat) (r : List Token) :
    (skip_bangs (List.replicate k (Token.op '!') ++ Token.op '&' :: r)).2 =
      Token.op '&' :: r := by
  induction k with
  | zero => rfl
  | succ k ih =>
    rw [List.replicate_succ]
    show (skip_bangs (Token.op '!' ::
      (List.replicate k (Token.op '!') ++ Token.op '&' :: r))).2 = _
    show (skip_bangs (List.replicate k (Token.op '!') ++ Token.op '&' :: r)).2 = _
    exact ih

theorem parse_rule_tail_copy (pts : List Place_Param_Target) (ridx : Option Nat)
    (deps : List Dep) (inp : Option Param_Name) (k : Nat) (nc : Param_Name)
    (rest : List Token)
    (hcond : ridx ≠ none ∨ pts.length ≠ 1 ∨ (headPPT pts).ttype ≠ TType.FILE) :
    parse_rule_tail pts ridx false deps inp
      (Token.op '=' :: (List.replicate k (Token.op '!') ++
        Token.name nc :: Token.op ';' :: rest)) = .error .ERROR_LOGICAL := by
  have hsb := skip_bangs_snd_name k nc (Token.op ';' :: rest)
  rcases k with _ | k2
  · simp only [List.replicate, List.nil_append] at hsb ⊢
    rw [parse_rule_tail]
    simp only []
    rw [hsb]
    · simp only []
      by_cases h1 : nc.get_parameters.all
          (fun par => (headPPT pts).place_param_name.get_parameters.contains par) = true
      · rw [if_neg (not_not_intro h1)]
        by_cases h2 : ridx ≠ none
        · rw [if_pos h2]
          rfl
        · rw [if_neg h2]
          by_cases h3 : pts.length ≠ 1
          · rw [if_pos h3]
            rfl
          · rw [if_neg h3]
            have h4 : (headPPT pts).ttype ≠ TType.FILE := by tauto
            rw [if_pos h4]
            rfl
      · rw [if_pos h1]
        rfl
    · simp
    · simp
  · rw [List.replicate_succ] at hsb ⊢
    simp only [List.cons_append] at hsb ⊢
    rw [parse_rule_tail]
    simp only []
    rw [hsb]
    · simp only []
      by_cases h1 : nc.get_parameters.all
          (fun par => (headPPT pts).place_param_name.get_parameters.contains par) = true
      · rw [if_neg (not_not_intro h1)]
        by_cases h2 : ridx ≠ none
        · rw [if_pos h2]
          rfl
        · rw [if_neg h2]
          by_cases h3 : pts.length ≠ 1
          · rw [if_pos h3]
            rfl
          · rw [if_neg h3]
            have h4 : (headPPT pts).ttype ≠ TType.FILE := by tauto
            rw [if_pos h4]
            rfl
      · rw [if_pos h1]
        rfl
    · simp
    · simp

theorem parse_rule_tail_flag_after_eq (pts : List Place_Param_Target) (ridx : Option Nat)
    (deps : List Dep) (inp : Option Param_Name) (k : Nat) (c : Char)
    (rest : List Token) (hc : c = '?' ∨ c = '&') :
    parse_rule_tail pts ridx false deps inp
      (Token.op '=' :: (List.replicate k (Token.op '!') ++ Token.op c :: rest)) =
      .error .ERROR_LOGICAL := by
  rcases hc with rfl | rfl
  · have hsb := skip_bangs_snd_q k rest
    rcases k with _ | k2
    · rfl
    · rw [List.replicate_succ] at hsb ⊢
      simp only [List.cons_append] at hsb ⊢
      rw [parse_rule_tail]
      simp only []
      rw [hsb]
      · rfl
      · simp
      · simp
  · have hsb := skip_bangs_snd_amp k rest
    rcases k with _ | k2
    · rfl
    · rw [List.replicate_succ] at hsb ⊢
      simp only [List.cons_append] at hsb ⊢
      rw [parse_rule_tail]
      simp only []
      rw [hsb]
      · rfl
      · simp
      · simp

/-- C8: for a copy rule (a rule whose body is '=' followed by optional
'!' flags and a filename, terminated by ';'), parse_rule_body throws
ERROR_LOGICAL whenever the rule has a TRANSIENT target, has more than
one target, or uses output redirection (a recorded '>' index); and an
optional '?' or trivial '&' flag after the '=' always throws
ERROR_LOGICAL. -/
theorem c8_copy_rule_rejections :
    (∀ (fuel : Nat) (pts : List Place_Param_Target) (ridx : Option Nat) (k : Nat)
      (nc : Param_Name) (rest : List Token),
      pts ≠ [] →
      ((∃ t2 ∈ pts, t2.ttype = TType.TRANSIENT) ∨ 1 < pts.length ∨ ridx ≠ none) →
      parse_rule_body fuel pts ridx
        (Token.op '=' :: (List.replicate k (Token.op '!') ++
          Token.name nc :: Token.op ';' :: rest)) = .error .ERROR_LOGICAL) ∧
    (∀ (fuel : Nat) (pts : List Place_Param_Target) (ridx : Option Nat) (k : Nat)
      (c : Char) (rest : List Token),
      c = '?' ∨ c = '&' →
      parse_rule_body fuel pts ridx
        (Token.op '=' :: (List.replicate k (Token.op '!') ++ Token.op c :: rest)) =
        .error .ERROR_LOGICAL) := by
  constructor
  · intro fuel pts ridx k nc rest hne hcond
    have hcode : ridx ≠ none ∨ pts.length ≠ 1 ∨ (headPPT pts).ttype ≠ TType.FILE := by
      rcases hcond with h | h | h
      · by_cases hl : pts.length = 1
        · obtain ⟨x, hx⟩ := List.length_eq_one.mp hl
          subst hx
          obtain ⟨t2, ht2, htt⟩ := h
          have hx2 : t2 = x := by simpa using ht2
          right; right
          have hh : headPPT [x] = x := rfl
          rw [hh, ← hx2, htt]
          decide
        · exact Or.inr (Or.inl hl)
      · exact Or.inr (Or.inl (by omega))
      · exact Or.inl h
    by_cases hsp : same_parameters pts = true
    · rw [parse_rule_body, if_neg (not_not_intro hsp)]
      · exact parse_rule_tail_copy pts ridx [] none k nc rest hcode
      · simp
      · simp
    · rw [parse_rule_body, if_pos hsp]
      · simp
      · simp
  · intro fuel pts ridx k c rest hc
    by_cases hsp : same_parameters pts = true
    · rw [parse_rule_body, if_neg (not_not_intro hsp)]
      · exact parse_rule_tail_flag_after_eq pts ridx [] none k c rest hc
      · simp
      · simp
    · rw [parse_rule_body, if_pos hsp]
      · simp
      · simp

theorem c8_copy_rule_rejections_witness :
    ([(⟨TType.TRANSIENT, ⟨"t", []⟩, 0⟩ : Place_Param_Target)] ≠ [] ∧
      ((∃ t2 ∈ [(⟨TType.TRANSIENT, ⟨"t", []⟩, 0⟩ : Place_Param_Target)],
          t2.ttype = TType.TRANSIENT) ∨
        1 < [(⟨TType.TRANSIENT, ⟨"t", []⟩, 0⟩ : Place_Param_Target)].length ∨
        (none : Option Nat) ≠ none)) ∧
    parse_rule_body 0 [⟨TType.TRANSIENT, ⟨"t", []⟩, 0⟩] none
      (Token.op '=' :: (List.replicate 1 (Token.op '!') ++
        Token.name ⟨"s", []⟩ :: Token.op ';' :: [])) = .error .ERROR_LOGICAL ∧
    (('?' : Char) = '?' ∨ ('?' : Char) = '&') ∧
    parse_rule_body 0 [⟨TType.FILE, ⟨"f", []⟩, 0⟩] none
      (Token.op '=' :: (List.replicate 0 (Token.op '!') ++ Token.op '?' :: [])) =
      .error .ERROR_LOGICAL :=
  ⟨⟨by decide, Or.inl ⟨⟨TType.TRANSIENT, ⟨"t", []⟩, 0⟩, by decide⟩⟩,
   c8_copy_rule_rejections.1 0 [⟨TType.TRANSIENT, ⟨"t", []⟩, 0⟩] none 1 ⟨"s", []⟩ []
     (by decide) (Or.inl ⟨⟨TType.TRANSIENT, ⟨"t", []⟩, 0⟩, by decide⟩),
   Or.inl rfl,
   c8_copy_rule_rejections.2 0 [⟨TType.FILE, ⟨"f", []⟩, 0⟩] none 0 '?' [] (Or.inl rfl)⟩

/-- C9: the structural invariants of dependency values (Dep.wf: a
Dynamic never has F_READ or F_VARIABLE set; a Direct with a non-empty
variable name has FILE kind and the F_VARIABLE flag; a Direct target is
never itself dynamic) are preserved by instantiation and, on
compound-clean values, by split_compound_dependencies. -/
theorem c9_dependency_invariants :
    (∀ (d : Dep) (v : String → String) (d2 : Dep),
      d.wf = true → Dep.instantiate v d = .ok d2 → d2.wf = true) ∧
    (∀ d : Dep, d.wf = true → d.compound_clean = true →
      ∀ e ∈ d.split_compound_dependencies, e.wf = true) :=
  ⟨fun d v d2 hw hi => instantiateWfAux d.size d le_rfl v d2 hw hi,
   fun d hw hc e he => splitWfAux d.size d le_rfl hw hc e he⟩

theorem c9_dependency_invariants_witness :
    (c9wdep.wf = true ∧ c9wdep.compound_clean = true ∧
      Dep.instantiate (fun x => x) c9wdep = .ok
        (.compound 0 Places.empty 3
          [.direct F_VARIABLE Places.empty ⟨TType.FILE, ⟨"v", []⟩, 0⟩ 0 "V",
           .dynamic F_PERSISTENT Places.empty
             (.direct 0 Places.empty ⟨TType.FILE, ⟨"d", []⟩, 0⟩ 0 "")])) ∧
    (Dep.compound 0 Places.empty 3
        [.direct F_VARIABLE Places.empty ⟨TType.FILE, ⟨"v", []⟩, 0⟩ 0 "V",
         .dynamic F_PERSISTENT Places.empty
           (.direct 0 Places.empty ⟨TType.FILE, ⟨"d", []⟩, 0⟩ 0 "")]).wf = true ∧
    (∀ e ∈ c9wdep.split_compound_dependencies, e.wf = true) :=
  ⟨⟨by decide, by decide, rfl⟩,
   c9_dependency_invariants.1 c9wdep (fun x => x)
     (.compound 0 Places.empty 3
       [.direct F_VARIABLE Places.empty ⟨TType.FILE, ⟨"v", []⟩, 0⟩ 0 "V",
        .dynamic F_PERSISTENT Places.empty
          (.direct 0 Places.empty ⟨TType.FILE, ⟨"d", []⟩, 0⟩ 0 "")])
     (by decide) rfl,
   fun e he => c9_dependency_invariants.2 c9wdep (by decide) (by decide) e he⟩

